import Mathlib

/-!
# Verification of `scripts/backfill_snapshots.py`

A shallow embedding of the bid/budget history backfill pipeline.

The script reconstructs a daily history of three campaign attributes
(`budget_amount`, `target_cpa`, `target_roas`) over a 29-day window from
sparse change events plus a current-value snapshot, and writes one
date-partitioned table per day.

Modelling conventions:
* a pandas `DataFrame` is a `List` of row structures, in row order;
* a nullable float column (`NaN`-able) is `Option ℚ`;
* `df.groupby("campaign_id")[col].ffill()` / `.bfill()` become explicit
  scans threading a per-campaign state `ℕ → Option ℚ`;
* `pd.merge(..., how="left")` becomes a `flatMap` that pairs each left
  row with every matching right row, or with "all nulls" when no right
  row matches;
* `astype(int)` is truncation toward zero (the numpy float→int cast) and
  fails on a null value, modelled in the `Except` monad;
* calendar dates are integers (day ordinals); a change timestamp is a
  date plus a time-of-day remainder that truncation discards.
-/

set_option autoImplicit false

namespace Backfill

/-- The three attribute columns restored by the script; `restore_history`
receives one of their names as its `name` argument. -/
inductive Dim where
  | budget_amount
  | target_cpa
  | target_roas
deriving DecidableEq, Repr

/-- A change-history timestamp: `"YYYY-MM-DD HH:MM:SS"`.  `day` is the date
part, `sec` the time-of-day part that `str.split(expand=True)[0]` drops. -/
structure Stamp where
  day : ℤ
  sec : ℕ
deriving DecidableEq, Repr

/-- One raw row of the fetched change-history report.  The fields mirror the
columns used by the script: `campaign_id`, `change_date`, and the
`old_*`/`new_*` pairs for each tracked attribute (per the event source's
contract, one pair per attribute); absent/NaN cells are `none`. -/
structure ChRow where
  campaign_id : ℕ
  change_date : Stamp
  old_budget_amount : Option ℚ
  new_budget_amount : Option ℚ
  old_target_cpa : Option ℚ
  new_target_cpa : Option ℚ
  old_target_roas : Option ℚ
  new_target_roas : Option ℚ
deriving DecidableEq, Repr

/-- A normalized change event: output row of `format_partial_change_history`
(`date`, `campaign_id`, `value_old`, `value_new`). -/
structure NEvent where
  date : ℤ
  campaign_id : ℕ
  value_old : Option ℚ
  value_new : Option ℚ
deriving DecidableEq, Repr

/-- One row of the `bid_budget` snapshot table (`SELECT *`), the
`current_values` argument of `restore_history`. -/
structure CVRow where
  campaign_id : ℕ
  budget_amount : Option ℚ
  target_cpa : Option ℚ
  target_roas : Option ℚ
deriving DecidableEq, Repr

/-- A placeholder-grid row: one `(campaign_id, date)` combination. -/
structure PRow where
  campaign_id : ℕ
  date : ℤ
deriving DecidableEq, Repr

/-- Working row of `restore_history`'s joined frame: placeholder keys, the
event values brought in by the left merge, and the two fill columns. -/
structure JRow where
  campaign_id : ℕ
  date : ℤ
  value_old : Option ℚ
  value_new : Option ℚ
  filled_backward : Option ℚ
  filled_forward : Option ℚ
deriving DecidableEq, Repr

/-- Output row of `restore_history`: `joined[["date", "campaign_id", name]]`.
`value` is the `name` column; it is `none` exactly where that column is NaN. -/
structure OutRow where
  date : ℤ
  campaign_id : ℕ
  value : Option ℚ
deriving DecidableEq, Repr

/-- Final wide row after the `reduce(pd.merge(...))` of the three restored
series. -/
structure WideRow where
  date : ℤ
  campaign_id : ℕ
  budget_amount : Option ℚ
  target_cpa : Option ℚ
  target_roas : Option ℚ
deriving DecidableEq, Repr

instance instDecEqExcept {ε α : Type} [DecidableEq ε] [DecidableEq α] :
    DecidableEq (Except ε α)
  | Except.ok a, Except.ok b =>
    if h : a = b then isTrue (congrArg Except.ok h)
    else isFalse fun hc => h (Except.ok.inj hc)
  | Except.ok _, Except.error _ => isFalse fun hc => Except.noConfusion hc
  | Except.error _, Except.ok _ => isFalse fun hc => Except.noConfusion hc
  | Except.error a, Except.error b =>
    if h : a = b then isTrue (congrArg Except.error h)
    else isFalse fun hc => h (Except.error.inj hc)

/-- Project a snapshot row onto an attribute column. -/
def CVRow.attr (r : CVRow) : Dim → Option ℚ
  | .budget_amount => r.budget_amount
  | .target_cpa => r.target_cpa
  | .target_roas => r.target_roas

/-- The `old_<dimension_name>` column of a raw change row. -/
def ChRow.oldAttr (r : ChRow) : Dim → Option ℚ
  | .budget_amount => r.old_budget_amount
  | .target_cpa => r.old_target_cpa
  | .target_roas => r.old_target_roas

/-- The `new_<dimension_name>` column of a raw change row. -/
def ChRow.newAttr (r : ChRow) : Dim → Option ℚ
  | .budget_amount => r.new_budget_amount
  | .target_cpa => r.new_target_cpa
  | .target_roas => r.new_target_roas

/-- `series.fillna(other)`, per cell: keep the first value when present,
otherwise take the second. -/
def fillna (a b : Option ℚ) : Option ℚ :=
  match a with
  | some v => some v
  | none => b

/-- A pandas comparison `col > 0`: false on NaN (null propagates to false). -/
def optPos (o : Option ℚ) : Bool :=
  match o with
  | some v => decide (0 < v)
  | none => false

/-- Truncation toward zero, the numpy float→int cast used by `astype(int)`. -/
def truncQ (q : ℚ) : ℤ :=
  q.num.tdiv q.den

/-- Update a per-campaign fill state at one campaign. -/
def upd (st : ℕ → Option ℚ) (c : ℕ) (v : Option ℚ) : ℕ → Option ℚ :=
  fun c' => if c' = c then v else st c'

/-!
## `restore_history`
-/

/-- `pd.merge(placeholder_df, partial_history, on=["campaign_id", "date"],
how="left")`: each placeholder row paired with every matching event, or
carried alone with null `value_old`/`value_new` when nothing matches. -/
def leftJoinEvents (placeholder : List PRow) (history : List NEvent) : List JRow :=
  placeholder.flatMap fun p =>
    let ms := history.filter fun ev =>
      ev.campaign_id = p.campaign_id ∧ ev.date = p.date
    if ms.isEmpty then
      [⟨p.campaign_id, p.date, none, none, none, none⟩]
    else
      ms.map fun ev => ⟨p.campaign_id, p.date, ev.value_old, ev.value_new, none, none⟩

/-- `joined.groupby("campaign_id")["value_old"].bfill()`: within each
campaign, a cell missing its own `value_old` takes the next (later-row)
non-null `value_old` of the same campaign.  The scan runs structurally from
the right, threading a per-campaign state; `stEnd` is the state past the last
row (no later observation: all `none` at the top-level call) and the returned
state is the backward-fill value available just before the processed rows. -/
def bfillOldAux (stEnd : ℕ → Option ℚ) : List JRow → List JRow × (ℕ → Option ℚ)
  | [] => ([], stEnd)
  | r :: rs =>
    let p := bfillOldAux stEnd rs
    let v := fillna r.value_old (p.2 r.campaign_id)
    ({ r with filled_backward := v } :: p.1, upd p.2 r.campaign_id v)

/-- The backward fill entered with no observation beyond the last row. -/
def bfillOld (l : List JRow) : List JRow × (ℕ → Option ℚ) :=
  bfillOldAux (fun _ => none) l

/-- `joined.groupby("campaign_id")["value_new"].ffill()`: within each
campaign, a cell missing its own `value_new` takes the most recent
(earlier-row) non-null `value_new` of the same campaign.  `st` carries the
value last seen for each campaign; the final state is returned alongside. -/
def ffillNew (st : ℕ → Option ℚ) : List JRow → List JRow × (ℕ → Option ℚ)
  | [] => ([], st)
  | r :: rs =>
    let v := fillna r.value_new (st r.campaign_id)
    let p := ffillNew (upd st r.campaign_id v) rs
    ({ r with filled_forward := v } :: p.1, p.2)

/-- `joined["filled_forward"] = ...["filled_forward"].fillna(filled_backward)`:
the combined fill, forward value when present, else backward value. -/
def combineFill (r : JRow) : JRow :=
  { r with filled_forward := fillna r.filled_forward r.filled_backward }

/-- `pd.merge(joined, current_values, on="campaign_id", how="left")` followed
by `np.where(joined["filled_forward"].isnull(), joined[name],
joined["filled_forward"])` and the column selection: each joined row paired
with every matching snapshot row (or null snapshot when none matches), the
`name` column taking the fill when present and the snapshot value otherwise. -/
def mergeCV (name : Dim) (rows : List JRow) (current_values : List CVRow) : List OutRow :=
  rows.flatMap fun r =>
    let ms := current_values.filter fun cv => cv.campaign_id = r.campaign_id
    if ms.isEmpty then
      [⟨r.date, r.campaign_id, fillna r.filled_forward none⟩]
    else
      ms.map fun cv => ⟨r.date, r.campaign_id, fillna r.filled_forward (cv.attr name)⟩

/-- The empty-events branch: `pd.merge(placeholder_df, current_values,
on="campaign_id", how="left")`, the `name` column coming straight from the
snapshot. -/
def mergeCVPlaceholder (name : Dim) (placeholder : List PRow) (current_values : List CVRow) :
    List OutRow :=
  placeholder.flatMap fun p =>
    let ms := current_values.filter fun cv => cv.campaign_id = p.campaign_id
    if ms.isEmpty then
      [⟨p.date, p.campaign_id, none⟩]
    else
      ms.map fun cv => ⟨p.date, p.campaign_id, cv.attr name⟩

/-- `astype(int)` over the whole column: truncate every value to a whole
number, raising on the first NaN cell encountered. -/
def castColumnInt : List OutRow → Except String (List OutRow)
  | [] => Except.ok []
  | r :: rs =>
    match r.value with
    | none => Except.error "cannot convert non-finite values to integer"
    | some v =>
      (castColumnInt rs).map fun out =>
        { r with value := some ((truncQ v : ℤ) : ℚ) } :: out

/-- `if name != "target_roas": joined[name] = joined[name].astype(int)`:
for the integer-typed attributes every value is truncated to a whole number,
and a NaN cell makes the cast raise; `target_roas` is left untouched. -/
def castColumn (name : Dim) (rows : List OutRow) : Except String (List OutRow) :=
  if name = Dim.target_roas then Except.ok rows else castColumnInt rows

/-- The per-row integer cast, on rows whose value is present. -/
def intCastRow (r : OutRow) : OutRow :=
  { r with value := r.value.map fun v => ((truncQ v : ℤ) : ℚ) }

/-- The value-level effect of the cast on one cell: identity on the ratio
attribute, truncation to a whole number on the integer-typed attributes. -/
def castVal (name : Dim) (q : ℚ) : ℚ :=
  if name = Dim.target_roas then q else ((truncQ q : ℤ) : ℚ)

/-- The row-level effect of a successful cast. -/
def castRowF (name : Dim) (r : OutRow) : OutRow :=
  { r with value := r.value.map (castVal name) }

/-- The join key of a placeholder row. -/
def PRow.key (r : PRow) : ℕ × ℤ := (r.campaign_id, r.date)

/-- The join key of a normalized event. -/
def NEvent.key (r : NEvent) : ℕ × ℤ := (r.campaign_id, r.date)

/-- The join key of a working row. -/
def JRow.key (r : JRow) : ℕ × ℤ := (r.campaign_id, r.date)

/-- The join key of a restored-series row. -/
def OutRow.key (r : OutRow) : ℕ × ℤ := (r.campaign_id, r.date)

/-- The join key of a wide row. -/
def WideRow.key (r : WideRow) : ℕ × ℤ := (r.campaign_id, r.date)

/-- The joined `name` column of `restore_history` before the integer cast:
left-merge with the events, backward then forward fill by campaign, combine,
left-merge with the snapshot, and resolve each cell. -/
def restoreJoined (placeholder : List PRow) (history : List NEvent)
    (current_values : List CVRow) (name : Dim) : List OutRow :=
  if history.isEmpty then
    mergeCVPlaceholder name placeholder current_values
  else
    mergeCV name
      ((ffillNew (fun _ => none)
        (bfillOld (leftJoinEvents placeholder history)).1).1.map combineFill)
      current_values

/-- `restore_history(placeholder_df, partial_history, current_values, name)`:
restores the `name` attribute's value for every `(campaign_id, date)` of the
placeholder grid, falling back to the snapshot, then casts integer-typed
attributes. -/
def restore_history (placeholder : List PRow) (history : List NEvent)
    (current_values : List CVRow) (name : Dim) : Except String (List OutRow) :=
  castColumn name (restoreJoined placeholder history current_values name)

/-!
## `format_partial_change_history`
-/

/-- `GroupBy.last` on one column: the last non-null value of the column in
row order, `none` when the whole column is null. -/
def lastSome (l : List (Option ℚ)) : Option ℚ :=
  l.foldl (fun acc o => match o with | some v => some v | none => acc) none

/-- Truncate the timestamp and rename the value columns: the per-row part of
`format_partial_change_history` before grouping. -/
def renameRow (dim : Dim) (r : ChRow) : NEvent :=
  ⟨r.change_date.day, r.campaign_id, r.oldAttr dim, r.newAttr dim⟩

/-- `df.groupby(["date", "campaign_id"]).last()`: one output row per distinct
key; each value column holds the last non-null entry of its group, in input
(chronological) order. -/
def groupLast (l : List NEvent) : List NEvent :=
  (l.map fun r => (r.date, r.campaign_id)).dedup.map fun key =>
    ⟨key.1, key.2,
      lastSome ((l.filter fun r =>
        r.date = key.1 ∧ r.campaign_id = key.2).map NEvent.value_old),
      lastSome ((l.filter fun r =>
        r.date = key.1 ∧ r.campaign_id = key.2).map NEvent.value_new)⟩

/-- `format_partial_change_history(df, dimension_name)`: truncate
`change_date` to its date, rename `old_/new_<dimension_name>` to
`value_old`/`value_new`, and keep one row per `(date, campaign_id)`. -/
def format_partial_change_history (df : List ChRow) (dimension_name : Dim) : List NEvent :=
  groupLast (df.map (renameRow dimension_name))

/-!
## The driver (`main`), pure part
-/

/-- The 29 dates `days_ago_29 .. days_ago_1`, the closed `pd.date_range`
ending the day before the run's current date. -/
def datesWindow (today : ℤ) : List ℤ :=
  (List.range 29).map fun (i : ℕ) => today - 29 + (i : ℤ)

/-- `itertools.product(campaign_ids, dates)`: the placeholder grid, every
campaign paired with every window date. -/
def placeholders (campaign_ids : List ℕ) (dates : List ℤ) : List PRow :=
  campaign_ids.flatMap fun c => dates.map fun d => ⟨c, d⟩

/-- The budget-event admission filter:
`(old_budget_amount > 0) & (new_budget_amount > 0)`. -/
def budgetAdmitted (r : ChRow) : Bool :=
  optPos r.old_budget_amount && optPos r.new_budget_amount

/-- The bid-event admission filter: `old_target_cpa > 0` (the new value is
not inspected). -/
def bidAdmitted (r : ChRow) : Bool :=
  optPos r.old_target_cpa

/-- The `budgets` frame passed to `restore_history`: the admitted budget
rows, normalized when any exist (an empty filter result is passed on as the
empty frame). -/
def budgetsEvents (change_history : List ChRow) : List NEvent :=
  let b := change_history.filter budgetAdmitted
  if b.isEmpty then [] else format_partial_change_history b Dim.budget_amount

/-- The `bids` frame passed to `restore_history`: the admitted bid rows,
normalized when any exist. -/
def bidsEvents (change_history : List ChRow) : List NEvent :=
  let b := change_history.filter bidAdmitted
  if b.isEmpty then [] else format_partial_change_history b Dim.target_cpa

/-- `restore_history(placeholders, budgets, current_bids_budgets,
"budget_amount")`. -/
def restoredBudgets (change_history : List ChRow) (campaign_ids : List ℕ)
    (current_values : List CVRow) (today : ℤ) : Except String (List OutRow) :=
  restore_history (placeholders campaign_ids (datesWindow today))
    (budgetsEvents change_history) current_values Dim.budget_amount

/-- `restore_history(placeholders, bids, current_bids_budgets,
"target_cpa")`. -/
def restoredTargetCpas (change_history : List ChRow) (campaign_ids : List ℕ)
    (current_values : List CVRow) (today : ℤ) : Except String (List OutRow) :=
  restore_history (placeholders campaign_ids (datesWindow today))
    (bidsEvents change_history) current_values Dim.target_cpa

/-- `restore_history(placeholders, bids, current_bids_budgets,
"target_roas")`: the script hands the *bid* (target_cpa) events to the
target_roas restoration. -/
def restoredTargetRoas (change_history : List ChRow) (campaign_ids : List ℕ)
    (current_values : List CVRow) (today : ℤ) : Except String (List OutRow) :=
  restore_history (placeholders campaign_ids (datesWindow today))
    (bidsEvents change_history) current_values Dim.target_roas

/-- One step of the `reduce`: `pd.merge(left, right, on=["date",
"campaign_id"], how="left")`, `set` installing the right frame's value column
into the wide row. -/
def mergeWideStep (set : WideRow → Option ℚ → WideRow) (left : List WideRow)
    (right : List OutRow) : List WideRow :=
  left.flatMap fun w =>
    let ms := right.filter fun o => o.campaign_id = w.campaign_id ∧ o.date = w.date
    if ms.isEmpty then [set w none] else ms.map fun o => set w o.value

/-- `reduce(pd.merge(...), [restored_budgets, restored_target_cpas,
restored_target_roas])`: the wide bid-budget history. -/
def mergeWide (budgets cpas roas : List OutRow) : List WideRow :=
  mergeWideStep (fun w v => { w with target_roas := v })
    (mergeWideStep (fun w v => { w with target_cpa := v })
      (budgets.map fun o => ⟨o.date, o.campaign_id, o.value, none, none⟩)
      cpas)
    roas

/-- The pure dataflow of `main` from fetched inputs to the wide history:
filter and normalize events, build the grid, restore each attribute, then
merge.  A failing integer cast propagates as the script's uncaught
exception. -/
def mainPure (change_history : List ChRow) (campaign_ids : List ℕ)
    (current_values : List CVRow) (today : ℤ) : Except String (List WideRow) := do
  let rb ← restoredBudgets change_history campaign_ids current_values today
  let rc ← restoredTargetCpas change_history campaign_ids current_values today
  let rr ← restoredTargetRoas change_history campaign_ids current_values today
  return mergeWide rb rc rr

/-- Modelled from the spec: the claim that each attribute is reconstructed
from its own events — normalized events "carrying old/new target_roas
values" ("Input: normalized events for one attribute").  Admission keeps the
rows that actually carry both target_roas values; normalization is the
shared `format_partial_change_history` applied to the `target_roas`
columns. -/
def specTargetRoasEvents (change_history : List ChRow) : List NEvent :=
  let b := change_history.filter fun r =>
    r.old_target_roas.isSome && r.new_target_roas.isSome
  if b.isEmpty then [] else format_partial_change_history b Dim.target_roas

/-- Modelled from the spec: the target_roas series the specification
describes, filled from the target_roas events themselves. -/
def specRestoredTargetRoas (change_history : List ChRow) (campaign_ids : List ℕ)
    (current_values : List CVRow) (today : ℤ) : Except String (List OutRow) :=
  restore_history (placeholders campaign_ids (datesWindow today))
    (specTargetRoasEvents change_history) current_values Dim.target_roas

/-!
## The per-date write loop
-/

/-- Distinguishable sink failures: the BigQuery `Conflict` ("already
exists") versus every other error. -/
inductive WErr where
  | conflict
  | other
deriving DecidableEq, Repr

/-- Reported outcome of one date's write. -/
inductive WriteOutcome where
  | created
  | alreadyExists
deriving DecidableEq, Repr

/-- The sink: the tables that already exist at the destination, and the
table ids whose writes fail for a reason other than existence (permission,
quota, malformed identifier). -/
structure Sink where
  tables : List (ℤ × List WideRow)
  failing : List ℤ
deriving DecidableEq, Repr

/-- Modelled from the spec: `write_data_to_bq` (defined in `src/utils`, not
part of the provided sources) with `write_disposition="WRITE_EMPTY"` —
create-if-absent: a destination-side failure surfaces as `other`, an
existing table raises `Conflict`, and otherwise the rows are written to a
fresh table. -/
def write_data_to_bq (sink : Sink) (table_id : ℤ) (data : List WideRow) :
    Except WErr Sink :=
  if table_id ∈ sink.failing then
    Except.error WErr.other
  else if table_id ∈ sink.tables.map Prod.fst then
    Except.error WErr.conflict
  else
    Except.ok ⟨sink.tables ++ [(table_id, data)], sink.failing⟩

/-- The per-date write loop of `main`: select the day's rows, attempt the
write, catch `Conflict` (log "already exists") and continue, and let any
other error propagate out of the loop. -/
def writeLoop (sink : Sink) (wide : List WideRow) :
    List ℤ → Except WErr (Sink × List (ℤ × WriteOutcome))
  | [] => Except.ok (sink, [])
  | d :: rest =>
    let daily := wide.filter fun r => r.date = d
    match write_data_to_bq sink d daily with
    | Except.ok s' =>
      (writeLoop s' wide rest).map fun p => (p.1, (d, WriteOutcome.created) :: p.2)
    | Except.error WErr.conflict =>
      (writeLoop sink wide rest).map fun p => (p.1, (d, WriteOutcome.alreadyExists) :: p.2)
    | Except.error WErr.other => Except.error WErr.other

/-!
## Basic lemmas
-/

theorem fillna_some (v : ℚ) (b : Option ℚ) : fillna (some v) b = some v := rfl

theorem fillna_none (b : Option ℚ) : fillna none b = b := rfl

theorem upd_self (st : ℕ → Option ℚ) (c : ℕ) (v : Option ℚ) : upd st c v c = v := by
  simp [upd]

theorem upd_ne (st : ℕ → Option ℚ) (c : ℕ) (v : Option ℚ) {c' : ℕ} (h : c' ≠ c) :
    upd st c v c' = st c' := by
  simp [upd, h]

/-!
## Lemmas on the fill scans
-/

theorem ffillNew_nil (st : ℕ → Option ℚ) : ffillNew st [] = ([], st) := rfl

theorem ffillNew_cons (st : ℕ → Option ℚ) (r : JRow) (rs : List JRow) :
    ffillNew st (r :: rs) =
      ({ r with filled_forward := fillna r.value_new (st r.campaign_id) } ::
         (ffillNew (upd st r.campaign_id (fillna r.value_new (st r.campaign_id))) rs).1,
       (ffillNew (upd st r.campaign_id (fillna r.value_new (st r.campaign_id))) rs).2) :=
  rfl

theorem bfillOldAux_nil (st : ℕ → Option ℚ) : bfillOldAux st [] = ([], st) := rfl

theorem bfillOldAux_cons (st : ℕ → Option ℚ) (r : JRow) (rs : List JRow) :
    bfillOldAux st (r :: rs) =
      ({ r with filled_backward :=
           fillna r.value_old ((bfillOldAux st rs).2 r.campaign_id) } ::
         (bfillOldAux st rs).1,
       upd (bfillOldAux st rs).2 r.campaign_id
         (fillna r.value_old ((bfillOldAux st rs).2 r.campaign_id))) :=
  rfl

theorem ffillNew_congrOn :
    ∀ (l : List JRow) (st st' : ℕ → Option ℚ),
      (∀ r ∈ l, st r.campaign_id = st' r.campaign_id) →
      (ffillNew st l).1 = (ffillNew st' l).1
  | [], _, _, _ => rfl
  | r :: rs, st, st', h => by
    have hr : st r.campaign_id = st' r.campaign_id := h r (List.mem_cons_self r rs)
    rw [ffillNew_cons, ffillNew_cons, hr]
    have hrec : ∀ r' ∈ rs,
        upd st r.campaign_id (fillna r.value_new (st' r.campaign_id)) r'.campaign_id =
        upd st' r.campaign_id (fillna r.value_new (st' r.campaign_id)) r'.campaign_id := by
      intro r' hr'
      by_cases hc : r'.campaign_id = r.campaign_id
      · rw [hc, upd_self, upd_self]
      · rw [upd_ne _ _ _ hc, upd_ne _ _ _ hc]
        exact h r' (List.mem_cons_of_mem r hr')
    simp only [List.cons.injEq, true_and]
    exact ffillNew_congrOn rs _ _ hrec

/-- Forward fill over an appended list: fill the prefix, then continue the
suffix from the prefix's final state. -/
theorem ffillNew_append (xs ys : List JRow) :
    ∀ st : ℕ → Option ℚ,
      ffillNew st (xs ++ ys) =
        ((ffillNew st xs).1 ++ (ffillNew (ffillNew st xs).2 ys).1,
         (ffillNew (ffillNew st xs).2 ys).2) := by
  induction xs with
  | nil => intro st; simp [ffillNew_nil]
  | cons r rs ih =>
    intro st
    rw [List.cons_append, ffillNew_cons, ffillNew_cons, ih]
    rfl

/-- Backward fill over an appended list: fill the suffix first, then the
prefix against the suffix's state. -/
theorem bfillOldAux_append (xs ys : List JRow) :
    ∀ st : ℕ → Option ℚ,
      bfillOldAux st (xs ++ ys) =
        ((bfillOldAux (bfillOldAux st ys).2 xs).1 ++ (bfillOldAux st ys).1,
         (bfillOldAux (bfillOldAux st ys).2 xs).2) := by
  induction xs with
  | nil => intro st; simp [bfillOldAux_nil]
  | cons r rs ih =>
    intro st
    rw [List.cons_append, bfillOldAux_cons, bfillOldAux_cons, ih]
    rfl

/-- A scan over rows with no `value_new` leaves the state unchanged and
fills each row with the state at its campaign. -/
theorem ffillNew_all_none :
    ∀ (l : List JRow) (st : ℕ → Option ℚ),
      (∀ r ∈ l, r.value_new = none) →
      (ffillNew st l).1 = l.map (fun r => { r with filled_forward := st r.campaign_id }) ∧
      ∀ c, (ffillNew st l).2 c = st c
  | [], st, _ => ⟨rfl, fun _ => rfl⟩
  | r :: rs, st, h => by
    have hr : r.value_new = none := h r (List.mem_cons_self r rs)
    have hrest : ∀ r' ∈ rs, r'.value_new = none := fun r' hr' =>
      h r' (List.mem_cons_of_mem r hr')
    have hst : ∀ r' ∈ rs, upd st r.campaign_id (st r.campaign_id) r'.campaign_id =
        st r'.campaign_id := by
      intro r' _
      by_cases hc : r'.campaign_id = r.campaign_id
      · rw [hc, upd_self]
      · exact upd_ne _ _ _ hc
    have ih := ffillNew_all_none rs (upd st r.campaign_id (st r.campaign_id)) hrest
    rw [ffillNew_cons, hr]
    simp only [fillna_none]
    constructor
    · simp only [List.map_cons, List.cons.injEq, hr, true_and]
      rw [ffillNew_congrOn rs _ st hst, (ffillNew_all_none rs st hrest).1]
    · intro c
      rw [ih.2 c]
      by_cases hc : c = r.campaign_id
      · rw [hc, upd_self]
      · exact upd_ne _ _ _ hc

/-- A scan over rows with no `value_old` leaves the state unchanged and
fills each row backward with the state at its campaign. -/
theorem bfillOldAux_all_none :
    ∀ (l : List JRow) (st : ℕ → Option ℚ),
      (∀ r ∈ l, r.value_old = none) →
      (bfillOldAux st l).1 = l.map (fun r => { r with filled_backward := st r.campaign_id }) ∧
      ∀ c, (bfillOldAux st l).2 c = st c
  | [], st, _ => ⟨rfl, fun _ => rfl⟩
  | r :: rs, st, h => by
    have hr : r.value_old = none := h r (List.mem_cons_self r rs)
    have hrest : ∀ r' ∈ rs, r'.value_old = none := fun r' hr' =>
      h r' (List.mem_cons_of_mem r hr')
    have ih := bfillOldAux_all_none rs st hrest
    rw [bfillOldAux_cons, hr]
    constructor
    · dsimp only
      simp only [List.map_cons, List.cons.injEq, hr, fillna_none,
        ih.2 r.campaign_id, true_and]
      exact ih.1
    · intro c
      dsimp only
      simp only [fillna_none, ih.2 r.campaign_id]
      by_cases hc : c = r.campaign_id
      · rw [hc, upd_self]
      · rw [upd_ne _ _ _ hc, ih.2 c]

/-!
## Restriction of every stage to a single campaign

Each stage of `restore_history` treats campaigns independently, so its
output restricted to one campaign's rows is the stage applied to the
restricted input.
-/

theorem filter_camp_all (l : List JRow) (c e : ℕ) (h : ∀ r ∈ l, r.campaign_id = c) :
    l.filter (fun r => r.campaign_id = e) = if c = e then l else [] := by
  induction l with
  | nil => by_cases hc : c = e <;> simp [hc]
  | cons r rs ih =>
    have hr : r.campaign_id = c := h r (List.mem_cons_self r rs)
    have ih' := ih fun r' hr' => h r' (List.mem_cons_of_mem r hr')
    by_cases hc : c = e
    · simp [List.filter_cons, hr, hc, ih']
    · simp [List.filter_cons, hr, hc, ih']

theorem placeholders_cons (c : ℕ) (cs : List ℕ) (dates : List ℤ) :
    placeholders (c :: cs) dates =
      (dates.map fun d => (⟨c, d⟩ : PRow)) ++ placeholders cs dates := by
  simp [placeholders]

theorem placeholders_block_all (c : ℕ) (dates : List ℤ) :
    ∀ p ∈ dates.map fun d => (⟨c, d⟩ : PRow), p.campaign_id = c := by
  intro p hp
  obtain ⟨d, _, rfl⟩ := List.mem_map.mp hp
  rfl

theorem pfilter_camp_all (l : List PRow) (c e : ℕ) (h : ∀ r ∈ l, r.campaign_id = c) :
    l.filter (fun r => r.campaign_id = e) = if c = e then l else [] := by
  induction l with
  | nil => by_cases hc : c = e <;> simp [hc]
  | cons r rs ih =>
    have hr : r.campaign_id = c := h r (List.mem_cons_self r rs)
    have ih' := ih fun r' hr' => h r' (List.mem_cons_of_mem r hr')
    by_cases hc : c = e
    · simp [List.filter_cons, hr, hc, ih']
    · simp [List.filter_cons, hr, hc, ih']

theorem placeholders_filter_not_mem (E : List ℕ) (dates : List ℤ) (e : ℕ) (he : e ∉ E) :
    (placeholders E dates).filter (fun p => p.campaign_id = e) = [] := by
  induction E with
  | nil => rfl
  | cons c cs ih =>
    have hc : c ≠ e := fun h => he (h ▸ List.mem_cons_self c cs)
    rw [placeholders_cons, List.filter_append,
      pfilter_camp_all _ c e (placeholders_block_all c dates),
      if_neg hc, List.nil_append]
    exact ih fun h => he (List.mem_cons_of_mem c h)

/-- In a duplicate-free grid, campaign `e`'s rows are exactly its window
block, dates in window order. -/
theorem placeholders_filter_mem (E : List ℕ) (dates : List ℤ) (e : ℕ)
    (hE : E.Nodup) (he : e ∈ E) :
    (placeholders E dates).filter (fun p => p.campaign_id = e) =
      dates.map fun d => (⟨e, d⟩ : PRow) := by
  induction E with
  | nil => cases he
  | cons c cs ih =>
    rw [placeholders_cons, List.filter_append,
      pfilter_camp_all _ c e (placeholders_block_all c dates)]
    rcases List.mem_cons.mp he with hce | hcs
    · subst hce
      have hnot : e ∉ cs := (List.nodup_cons.mp hE).1
      rw [if_pos rfl, placeholders_filter_not_mem cs dates e hnot,
        List.append_nil]
    · have hc : c ≠ e := by
        intro h
        exact (List.nodup_cons.mp hE).1 (h ▸ hcs)
      rw [if_neg hc, List.nil_append]
      exact ih (List.nodup_cons.mp hE).2 hcs

theorem leftJoinEvents_nil (H : List NEvent) : leftJoinEvents [] H = [] := rfl

theorem leftJoinEvents_cons (p : PRow) (ps : List PRow) (H : List NEvent) :
    leftJoinEvents (p :: ps) H =
      (if (H.filter fun ev => ev.campaign_id = p.campaign_id ∧ ev.date = p.date).isEmpty
       then [⟨p.campaign_id, p.date, none, none, none, none⟩]
       else (H.filter fun ev => ev.campaign_id = p.campaign_id ∧ ev.date = p.date).map
         fun ev => ⟨p.campaign_id, p.date, ev.value_old, ev.value_new, none, none⟩) ++
      leftJoinEvents ps H := by
  simp [leftJoinEvents]

theorem leftJoinEvents_block_all (p : PRow) (H : List NEvent) :
    ∀ r ∈ (if (H.filter fun ev => ev.campaign_id = p.campaign_id ∧ ev.date = p.date).isEmpty
           then [(⟨p.campaign_id, p.date, none, none, none, none⟩ : JRow)]
           else (H.filter fun ev => ev.campaign_id = p.campaign_id ∧ ev.date = p.date).map
             fun ev => ⟨p.campaign_id, p.date, ev.value_old, ev.value_new, none, none⟩),
      r.campaign_id = p.campaign_id := by
  intro r hr
  by_cases hms : (H.filter fun ev => ev.campaign_id = p.campaign_id ∧ ev.date = p.date).isEmpty
  · rw [if_pos hms] at hr
    rcases List.mem_singleton.mp hr with rfl
    rfl
  · rw [if_neg hms] at hr
    obtain ⟨ev, _, rfl⟩ := List.mem_map.mp hr
    rfl

theorem leftJoinEvents_filter (P : List PRow) (H : List NEvent) (e : ℕ) :
    (leftJoinEvents P H).filter (fun j => j.campaign_id = e) =
      leftJoinEvents (P.filter fun p => p.campaign_id = e) H := by
  induction P with
  | nil => rfl
  | cons p ps ih =>
    by_cases hc : p.campaign_id = e
    · have hd : decide (p.campaign_id = e) = true := by simp [hc]
      rw [leftJoinEvents_cons, List.filter_append,
        filter_camp_all _ p.campaign_id e (leftJoinEvents_block_all p H), if_pos hc,
        List.filter_cons, if_pos hd, leftJoinEvents_cons, ih]
    · have hd : ¬decide (p.campaign_id = e) = true := by simp [hc]
      rw [leftJoinEvents_cons, List.filter_append,
        filter_camp_all _ p.campaign_id e (leftJoinEvents_block_all p H), if_neg hc,
        List.filter_cons, if_neg hd, List.nil_append, ih]

theorem bfillOldAux_filter (e : ℕ) :
    ∀ (l : List JRow) (st : ℕ → Option ℚ),
      (bfillOldAux st l).1.filter (fun r => r.campaign_id = e) =
        (bfillOldAux st (l.filter fun r => r.campaign_id = e)).1 ∧
      (bfillOldAux st l).2 e = (bfillOldAux st (l.filter fun r => r.campaign_id = e)).2 e
  | [], _ => ⟨rfl, rfl⟩
  | r :: rs, st => by
    have ih := bfillOldAux_filter e rs st
    have hst : (bfillOldAux st rs).2 r.campaign_id =
        (bfillOldAux st (rs.filter fun r' => r'.campaign_id = e)).2 r.campaign_id ∨
        r.campaign_id ≠ e := by
      by_cases hc : r.campaign_id = e
      · exact Or.inl (by rw [hc]; exact ih.2)
      · exact Or.inr hc
    by_cases hc : r.campaign_id = e
    · have hv := hst.resolve_right (fun h => h hc)
      have hd : decide (r.campaign_id = e) = true := by simp [hc]
      constructor
      · rw [bfillOldAux_cons]
        dsimp only
        rw [List.filter_cons]
        dsimp only
        rw [if_pos hd, List.filter_cons]
        rw [if_pos hd, bfillOldAux_cons]
        dsimp only
        rw [ih.1, hv]
      · rw [bfillOldAux_cons, List.filter_cons]
        dsimp only
        rw [if_pos hd, bfillOldAux_cons]
        dsimp only
        rw [hv, hc, upd_self, upd_self]
    · have hd : ¬decide (r.campaign_id = e) = true := by simp [hc]
      have hne : e ≠ r.campaign_id := fun h => hc h.symm
      constructor
      · rw [bfillOldAux_cons]
        dsimp only
        rw [List.filter_cons]
        dsimp only
        rw [if_neg hd, List.filter_cons]
        rw [if_neg hd]
        exact ih.1
      · rw [bfillOldAux_cons, List.filter_cons]
        dsimp only
        rw [if_neg hd, upd_ne _ _ _ hne]
        exact ih.2

theorem ffillNew_filter (e : ℕ) :
    ∀ (l : List JRow) (st : ℕ → Option ℚ),
      (ffillNew st l).1.filter (fun r => r.campaign_id = e) =
        (ffillNew st (l.filter fun r => r.campaign_id = e)).1
  | [], _ => rfl
  | r :: rs, st => by
    have ih := ffillNew_filter e rs
    by_cases hc : r.campaign_id = e
    · have hd : decide (r.campaign_id = e) = true := by simp [hc]
      rw [ffillNew_cons]
      dsimp only
      rw [List.filter_cons]
      dsimp only
      rw [if_pos hd, List.filter_cons]
      rw [if_pos hd, ffillNew_cons]
      dsimp only
      rw [ih]
    · have hd : ¬decide (r.campaign_id = e) = true := by simp [hc]
      have hne : e ≠ r.campaign_id := fun h => hc h.symm
      rw [ffillNew_cons]
      dsimp only
      rw [List.filter_cons]
      dsimp only
      rw [if_neg hd, List.filter_cons]
      rw [if_neg hd, ih]
      apply ffillNew_congrOn
      intro r' hr'
      have : r'.campaign_id = e :=
        of_decide_eq_true (List.mem_filter.mp hr').2
      rw [this]
      exact upd_ne _ _ _ hne

theorem combineFill_campaign (r : JRow) : (combineFill r).campaign_id = r.campaign_id := rfl

theorem combineFill_filter (l : List JRow) (e : ℕ) :
    (l.map combineFill).filter (fun r => r.campaign_id = e) =
      (l.filter fun r => r.campaign_id = e).map combineFill := by
  induction l with
  | nil => rfl
  | cons r rs ih =>
    rw [List.map_cons, List.filter_cons, List.filter_cons]
    by_cases hc : r.campaign_id = e
    · have hd : decide (r.campaign_id = e) = true := by simp [hc]
      have hd' : decide ((combineFill r).campaign_id = e) = true := by
        rw [combineFill_campaign]; exact hd
      rw [if_pos hd', if_pos hd, List.map_cons, ih]
    · have hd : ¬decide (r.campaign_id = e) = true := by simp [hc]
      have hd' : ¬decide ((combineFill r).campaign_id = e) = true := by
        rw [combineFill_campaign]; exact hd
      rw [if_neg hd', if_neg hd, ih]

theorem mergeCV_nil (name : Dim) (cv : List CVRow) : mergeCV name [] cv = [] := rfl

theorem mergeCV_cons (name : Dim) (r : JRow) (rs : List JRow) (cv : List CVRow) :
    mergeCV name (r :: rs) cv =
      (if (cv.filter fun c => c.campaign_id = r.campaign_id).isEmpty
       then [⟨r.date, r.campaign_id, fillna r.filled_forward none⟩]
       else (cv.filter fun c => c.campaign_id = r.campaign_id).map
         fun c => ⟨r.date, r.campaign_id, fillna r.filled_forward (c.attr name)⟩) ++
      mergeCV name rs cv := by
  simp [mergeCV]

theorem mergeCV_block_all (name : Dim) (r : JRow) (cv : List CVRow) :
    ∀ o ∈ (if (cv.filter fun c => c.campaign_id = r.campaign_id).isEmpty
           then [(⟨r.date, r.campaign_id, fillna r.filled_forward none⟩ : OutRow)]
           else (cv.filter fun c => c.campaign_id = r.campaign_id).map
             fun c => ⟨r.date, r.campaign_id, fillna r.filled_forward (c.attr name)⟩),
      o.campaign_id = r.campaign_id := by
  intro o ho
  by_cases hms : (cv.filter fun c => c.campaign_id = r.campaign_id).isEmpty
  · rw [if_pos hms] at ho
    rcases List.mem_singleton.mp ho with rfl
    rfl
  · rw [if_neg hms] at ho
    obtain ⟨c, _, rfl⟩ := List.mem_map.mp ho
    rfl

theorem ofilter_camp_all (l : List OutRow) (c e : ℕ) (h : ∀ r ∈ l, r.campaign_id = c) :
    l.filter (fun r => r.campaign_id = e) = if c = e then l else [] := by
  induction l with
  | nil => by_cases hc : c = e <;> simp [hc]
  | cons r rs ih =>
    have hr : r.campaign_id = c := h r (List.mem_cons_self r rs)
    have ih' := ih fun r' hr' => h r' (List.mem_cons_of_mem r hr')
    by_cases hc : c = e
    · simp [List.filter_cons, hr, hc, ih']
    · simp [List.filter_cons, hr, hc, ih']

theorem mergeCV_filter (name : Dim) (rows : List JRow) (cv : List CVRow) (e : ℕ) :
    (mergeCV name rows cv).filter (fun o => o.campaign_id = e) =
      mergeCV name (rows.filter fun r => r.campaign_id = e) cv := by
  induction rows with
  | nil => rfl
  | cons r rs ih =>
    by_cases hc : r.campaign_id = e
    · have hd : decide (r.campaign_id = e) = true := by simp [hc]
      rw [mergeCV_cons, List.filter_append,
        ofilter_camp_all _ r.campaign_id e (mergeCV_block_all name r cv), if_pos hc,
        List.filter_cons, if_pos hd, mergeCV_cons, ih]
    · have hd : ¬decide (r.campaign_id = e) = true := by simp [hc]
      rw [mergeCV_cons, List.filter_append,
        ofilter_camp_all _ r.campaign_id e (mergeCV_block_all name r cv), if_neg hc,
        List.filter_cons, if_neg hd, List.nil_append, ih]

theorem mergeCVPlaceholder_nil (name : Dim) (cv : List CVRow) :
    mergeCVPlaceholder name [] cv = [] := rfl

theorem mergeCVPlaceholder_cons (name : Dim) (p : PRow) (ps : List PRow) (cv : List CVRow) :
    mergeCVPlaceholder name (p :: ps) cv =
      (if (cv.filter fun c => c.campaign_id = p.campaign_id).isEmpty
       then [⟨p.date, p.campaign_id, none⟩]
       else (cv.filter fun c => c.campaign_id = p.campaign_id).map
         fun c => ⟨p.date, p.campaign_id, c.attr name⟩) ++
      mergeCVPlaceholder name ps cv := by
  simp [mergeCVPlaceholder]

theorem mergeCVPlaceholder_block_all (name : Dim) (p : PRow) (cv : List CVRow) :
    ∀ o ∈ (if (cv.filter fun c => c.campaign_id = p.campaign_id).isEmpty
           then [(⟨p.date, p.campaign_id, none⟩ : OutRow)]
           else (cv.filter fun c => c.campaign_id = p.campaign_id).map
             fun c => ⟨p.date, p.campaign_id, c.attr name⟩),
      o.campaign_id = p.campaign_id := by
  intro o ho
  by_cases hms : (cv.filter fun c => c.campaign_id = p.campaign_id).isEmpty
  · rw [if_pos hms] at ho
    rcases List.mem_singleton.mp ho with rfl
    rfl
  · rw [if_neg hms] at ho
    obtain ⟨c, _, rfl⟩ := List.mem_map.mp ho
    rfl

theorem mergeCVPlaceholder_filter (name : Dim) (ps : List PRow) (cv : List CVRow) (e : ℕ) :
    (mergeCVPlaceholder name ps cv).filter (fun o => o.campaign_id = e) =
      mergeCVPlaceholder name (ps.filter fun p => p.campaign_id = e) cv := by
  induction ps with
  | nil => rfl
  | cons p ps ih =>
    by_cases hc : p.campaign_id = e
    · have hd : decide (p.campaign_id = e) = true := by simp [hc]
      rw [mergeCVPlaceholder_cons, List.filter_append,
        ofilter_camp_all _ p.campaign_id e (mergeCVPlaceholder_block_all name p cv),
        if_pos hc, List.filter_cons, if_pos hd, mergeCVPlaceholder_cons, ih]
    · have hd : ¬decide (p.campaign_id = e) = true := by simp [hc]
      rw [mergeCVPlaceholder_cons, List.filter_append,
        ofilter_camp_all _ p.campaign_id e (mergeCVPlaceholder_block_all name p cv),
        if_neg hc, List.filter_cons, if_neg hd, List.nil_append, ih]

/-!
## Evaluating the join on one campaign's rows
-/

/-- No event for campaign `e`: its whole window joins to null values. -/
theorem leftJoinEvents_nomatch (dates : List ℤ) (H : List NEvent) (e : ℕ)
    (h : ∀ ev ∈ H, ev.campaign_id ≠ e) :
    leftJoinEvents (dates.map fun d => (⟨e, d⟩ : PRow)) H =
      dates.map fun d => ⟨e, d, none, none, none, none⟩ := by
  induction dates with
  | nil => rfl
  | cons d ds ih =>
    rw [List.map_cons, leftJoinEvents_cons]
    have hms : (H.filter fun ev =>
        ev.campaign_id = (⟨e, d⟩ : PRow).campaign_id ∧ ev.date = (⟨e, d⟩ : PRow).date) = [] := by
      apply List.filter_eq_nil_iff.mpr
      intro ev hev
      simp only [decide_eq_true_eq, not_and]
      intro hcamp
      exact absurd hcamp (h ev hev)
    rw [hms, ih, List.map_cons]
    rfl

/-- The single event `(k, e, a, b)` on campaign `e`: date `k` joins to it,
every other date joins to nulls. -/
theorem leftJoinEvents_single (dates : List ℤ) (H : List NEvent) (e : ℕ) (k : ℤ)
    (a b : Option ℚ)
    (hev : H.filter (fun ev => ev.campaign_id = e) = [⟨k, e, a, b⟩]) :
    leftJoinEvents (dates.map fun d => (⟨e, d⟩ : PRow)) H =
      dates.map fun d =>
        if d = k then ⟨e, d, a, b, none, none⟩ else ⟨e, d, none, none, none, none⟩ := by
  have hkey : ∀ d : ℤ, H.filter (fun ev => ev.campaign_id = e ∧ ev.date = d) =
      if d = k then [⟨k, e, a, b⟩] else [] := by
    intro d
    have h1 : H.filter (fun ev => ev.campaign_id = e ∧ ev.date = d) =
        (H.filter fun ev => ev.campaign_id = e).filter fun ev => ev.date = d := by
      rw [List.filter_filter]
      apply List.filter_congr
      intro ev _
      simp [Bool.and_comm]
    rw [h1, hev]
    by_cases hd : d = k
    · subst hd
      simp
    · have h2 : ¬k = d := fun h => hd h.symm
      simp [List.filter_cons, h2, hd]
  induction dates with
  | nil => rfl
  | cons d ds ih =>
    rw [List.map_cons, leftJoinEvents_cons, ih, List.map_cons]
    by_cases hd : d = k
    · rw [show (⟨e, d⟩ : PRow).campaign_id = e from rfl,
        show (⟨e, d⟩ : PRow).date = d from rfl, hkey d, if_pos hd, if_pos hd]
      rfl
    · rw [show (⟨e, d⟩ : PRow).campaign_id = e from rfl,
        show (⟨e, d⟩ : PRow).date = d from rfl, hkey d, if_neg hd, if_neg hd]
      rfl

/-!
## Membership and coverage through the snapshot merge
-/

theorem mergeCV_mem_elim (name : Dim) (rows : List JRow) (cv : List CVRow) (o : OutRow)
    (ho : o ∈ mergeCV name rows cv) :
    ∃ r ∈ rows, o.campaign_id = r.campaign_id ∧ o.date = r.date ∧
      ((o.value = fillna r.filled_forward none ∧
          ∀ c ∈ cv, c.campaign_id ≠ r.campaign_id) ∨
        ∃ c ∈ cv, c.campaign_id = r.campaign_id ∧
          o.value = fillna r.filled_forward (c.attr name)) := by
  induction rows with
  | nil => cases ho
  | cons r rs ih =>
    rw [mergeCV_cons] at ho
    rcases List.mem_append.mp ho with hblk | hrest
    · refine ⟨r, List.mem_cons_self r rs, ?_⟩
      by_cases hms : (cv.filter fun c => c.campaign_id = r.campaign_id).isEmpty
      · rw [if_pos hms] at hblk
        rcases List.mem_singleton.mp hblk with rfl
        refine ⟨rfl, rfl, Or.inl ⟨rfl, ?_⟩⟩
        intro c hc hcamp
        have : c ∈ cv.filter fun c => c.campaign_id = r.campaign_id :=
          List.mem_filter.mpr ⟨hc, decide_eq_true hcamp⟩
        rw [List.isEmpty_iff.mp hms] at this
        cases this
      · rw [if_neg hms] at hblk
        obtain ⟨c, hc, rfl⟩ := List.mem_map.mp hblk
        have hcmem := List.mem_filter.mp hc
        exact ⟨rfl, rfl, Or.inr ⟨c, hcmem.1, of_decide_eq_true hcmem.2, rfl⟩⟩
    · obtain ⟨r', hr', hprop⟩ := ih hrest
      exact ⟨r', List.mem_cons_of_mem r hr', hprop⟩

theorem mergeCV_cover (name : Dim) (rows : List JRow) (cv : List CVRow) (r : JRow)
    (hr : r ∈ rows) :
    ∃ o ∈ mergeCV name rows cv, o.campaign_id = r.campaign_id ∧ o.date = r.date := by
  induction rows with
  | nil => cases hr
  | cons r0 rs ih =>
    rcases List.mem_cons.mp hr with rfl | hr'
    · by_cases hms : (cv.filter fun c => c.campaign_id = r.campaign_id).isEmpty
      · refine ⟨⟨r.date, r.campaign_id, fillna r.filled_forward none⟩, ?_, rfl, rfl⟩
        rw [mergeCV_cons, if_pos hms]
        exact List.mem_append_left _ (List.mem_singleton.mpr rfl)
      · have hne : (cv.filter fun c => c.campaign_id = r.campaign_id) ≠ [] := by
          intro h
          rw [h] at hms
          exact hms rfl
        obtain ⟨c, hc⟩ := List.exists_mem_of_ne_nil _ hne
        refine ⟨⟨r.date, r.campaign_id, fillna r.filled_forward (c.attr name)⟩, ?_, rfl, rfl⟩
        rw [mergeCV_cons, if_neg hms]
        exact List.mem_append_left _ (List.mem_map.mpr ⟨c, hc, rfl⟩)
    · obtain ⟨o, ho, hprop⟩ := ih hr'
      refine ⟨o, ?_, hprop⟩
      rw [mergeCV_cons]
      exact List.mem_append_right _ ho

theorem mergeCVPlaceholder_mem_elim (name : Dim) (ps : List PRow) (cv : List CVRow)
    (o : OutRow) (ho : o ∈ mergeCVPlaceholder name ps cv) :
    ∃ p ∈ ps, o.campaign_id = p.campaign_id ∧ o.date = p.date ∧
      ((o.value = none ∧ ∀ c ∈ cv, c.campaign_id ≠ p.campaign_id) ∨
        ∃ c ∈ cv, c.campaign_id = p.campaign_id ∧ o.value = c.attr name) := by
  induction ps with
  | nil => cases ho
  | cons p ps ih =>
    rw [mergeCVPlaceholder_cons] at ho
    rcases List.mem_append.mp ho with hblk | hrest
    · refine ⟨p, List.mem_cons_self p ps, ?_⟩
      by_cases hms : (cv.filter fun c => c.campaign_id = p.campaign_id).isEmpty
      · rw [if_pos hms] at hblk
        rcases List.mem_singleton.mp hblk with rfl
        refine ⟨rfl, rfl, Or.inl ⟨rfl, ?_⟩⟩
        intro c hc hcamp
        have : c ∈ cv.filter fun c => c.campaign_id = p.campaign_id :=
          List.mem_filter.mpr ⟨hc, decide_eq_true hcamp⟩
        rw [List.isEmpty_iff.mp hms] at this
        cases this
      · rw [if_neg hms] at hblk
        obtain ⟨c, hc, rfl⟩ := List.mem_map.mp hblk
        have hcmem := List.mem_filter.mp hc
        exact ⟨rfl, rfl, Or.inr ⟨c, hcmem.1, of_decide_eq_true hcmem.2, rfl⟩⟩
    · obtain ⟨p', hp', hprop⟩ := ih hrest
      exact ⟨p', List.mem_cons_of_mem p hp', hprop⟩

theorem mergeCVPlaceholder_cover (name : Dim) (ps : List PRow) (cv : List CVRow) (p : PRow)
    (hp : p ∈ ps) :
    ∃ o ∈ mergeCVPlaceholder name ps cv, o.campaign_id = p.campaign_id ∧ o.date = p.date := by
  induction ps with
  | nil => cases hp
  | cons p0 ps ih =>
    rcases List.mem_cons.mp hp with rfl | hp'
    · by_cases hms : (cv.filter fun c => c.campaign_id = p.campaign_id).isEmpty
      · refine ⟨⟨p.date, p.campaign_id, none⟩, ?_, rfl, rfl⟩
        rw [mergeCVPlaceholder_cons, if_pos hms]
        exact List.mem_append_left _ (List.mem_singleton.mpr rfl)
      · have hne : (cv.filter fun c => c.campaign_id = p.campaign_id) ≠ [] := by
          intro h
          rw [h] at hms
          exact hms rfl
        obtain ⟨c, hc⟩ := List.exists_mem_of_ne_nil _ hne
        refine ⟨⟨p.date, p.campaign_id, c.attr name⟩, ?_, rfl, rfl⟩
        rw [mergeCVPlaceholder_cons, if_neg hms]
        exact List.mem_append_left _ (List.mem_map.mpr ⟨c, hc, rfl⟩)
    · obtain ⟨o, ho, hprop⟩ := ih hp'
      refine ⟨o, ?_, hprop⟩
      rw [mergeCVPlaceholder_cons]
      exact List.mem_append_right _ ho

/-!
## The integer cast
-/

theorem castRowF_campaign (name : Dim) (r : OutRow) :
    (castRowF name r).campaign_id = r.campaign_id := rfl

theorem castRowF_date (name : Dim) (r : OutRow) : (castRowF name r).date = r.date := rfl

theorem castRowF_roas (r : OutRow) : castRowF Dim.target_roas r = r := by
  cases r with
  | mk d c v =>
    unfold castRowF castVal
    cases v <;> simp

theorem map_castRowF_roas (rows : List OutRow) :
    rows.map (castRowF Dim.target_roas) = rows := by
  induction rows with
  | nil => rfl
  | cons r rs ih => rw [List.map_cons, castRowF_roas, ih]

theorem castRowF_of_ne (name : Dim) (hname : name ≠ Dim.target_roas) (r : OutRow) :
    castRowF name r = intCastRow r := by
  unfold castRowF castVal intCastRow
  simp only [if_neg hname]

theorem castColumn_roas (rows : List OutRow) :
    castColumn Dim.target_roas rows = Except.ok rows := rfl

theorem castColumnInt_ok_iff (rows : List OutRow) (out : List OutRow) :
    castColumnInt rows = Except.ok out ↔
      (∀ r ∈ rows, r.value ≠ none) ∧ out = rows.map intCastRow := by
  induction rows generalizing out with
  | nil =>
    simp only [castColumnInt, List.map_nil]
    constructor
    · intro h
      refine ⟨fun r hr => absurd hr (List.not_mem_nil r), ?_⟩
      exact (Except.ok.inj h).symm
    · intro h
      rw [h.2]
  | cons r rs ih =>
    constructor
    · intro h
      cases hv : r.value with
      | none =>
        rw [castColumnInt, hv] at h
        cases h
      | some v =>
        rw [castColumnInt, hv] at h
        cases hrec : castColumnInt rs with
        | error err => rw [hrec] at h; cases h
        | ok out' =>
          rw [hrec] at h
          have hout : out = { r with value := some ((truncQ v : ℤ) : ℚ) } :: out' :=
            (Except.ok.inj h).symm
          obtain ⟨hall, hmap⟩ := (ih out').mp hrec
          constructor
          · intro r' hr'
            rcases List.mem_cons.mp hr' with rfl | hmem
            · rw [hv]; exact fun hc => Option.noConfusion hc
            · exact hall r' hmem
          · rw [hout, hmap, List.map_cons]
            have : intCastRow r = { r with value := some ((truncQ v : ℤ) : ℚ) } := by
              unfold intCastRow
              rw [hv]
              rfl
            rw [this]
    · intro ⟨hall, hmap⟩
      cases hv : r.value with
      | none => exact absurd hv (hall r (List.mem_cons_self r rs))
      | some v =>
        rw [castColumnInt, hv]
        have hrec : castColumnInt rs = Except.ok (rs.map intCastRow) :=
          (ih (rs.map intCastRow)).mpr
            ⟨fun r' hr' => hall r' (List.mem_cons_of_mem r hr'), rfl⟩
        rw [hrec]
        rw [hmap, List.map_cons]
        have : intCastRow r = { r with value := some ((truncQ v : ℤ) : ℚ) } := by
          unfold intCastRow
          rw [hv]
          rfl
        rw [this]
        rfl

theorem castColumn_ok_elim (name : Dim) (rows out : List OutRow)
    (h : castColumn name rows = Except.ok out) :
    out = rows.map (castRowF name) ∧
      (name ≠ Dim.target_roas → ∀ r ∈ rows, r.value ≠ none) := by
  by_cases hname : name = Dim.target_roas
  · subst hname
    rw [castColumn_roas] at h
    have hout : out = rows := (Except.ok.inj h).symm
    constructor
    · rw [hout, map_castRowF_roas]
    · intro hc
      cases hc rfl
  · rw [castColumn, if_neg hname] at h
    obtain ⟨hall, hmap⟩ := (castColumnInt_ok_iff rows out).mp h
    constructor
    · rw [hmap]
      apply List.map_congr_left
      intro r _
      rw [castRowF_of_ne name hname]
    · intro _
      exact hall

theorem castColumn_ok_of_all_some (name : Dim) (rows : List OutRow)
    (h : ∀ r ∈ rows, r.value ≠ none) :
    castColumn name rows = Except.ok (rows.map (castRowF name)) := by
  by_cases hname : name = Dim.target_roas
  · subst hname
    rw [castColumn_roas, map_castRowF_roas]
  · rw [castColumn, if_neg hname,
      (castColumnInt_ok_iff rows (rows.map intCastRow)).mpr ⟨h, rfl⟩]
    congr 1
    apply List.map_congr_left
    intro r _
    rw [castRowF_of_ne name hname]

theorem castColumn_ne_ok_of_none (name : Dim) (rows : List OutRow) (r : OutRow)
    (hname : name ≠ Dim.target_roas) (hr : r ∈ rows) (hv : r.value = none) :
    ∀ out, castColumn name rows ≠ Except.ok out := by
  intro out hok
  exact (castColumn_ok_elim name rows out hok).2 hname r hr hv

/-!
## Key preservation and coverage through the fills
-/

theorem bfillOldAux_keys (st : ℕ → Option ℚ) (l : List JRow) :
    (bfillOldAux st l).1.map JRow.key = l.map JRow.key := by
  induction l with
  | nil => rfl
  | cons r rs ih => rw [bfillOldAux_cons]; dsimp only; rw [List.map_cons, ih]; rfl

theorem ffillNew_keys (st : ℕ → Option ℚ) (l : List JRow) :
    (ffillNew st l).1.map JRow.key = l.map JRow.key := by
  induction l generalizing st with
  | nil => rfl
  | cons r rs ih => rw [ffillNew_cons]; dsimp only; rw [List.map_cons, ih]; rfl

theorem map_combineFill_keys (l : List JRow) :
    (l.map combineFill).map JRow.key = l.map JRow.key := by
  induction l with
  | nil => rfl
  | cons r rs ih => rw [List.map_cons, List.map_cons, ih]; rfl

theorem mem_key_transfer {l out : List JRow}
    (hkeys : out.map JRow.key = l.map JRow.key) {j : JRow} (hj : j ∈ l) :
    ∃ j' ∈ out, j'.campaign_id = j.campaign_id ∧ j'.date = j.date := by
  have : j.key ∈ out.map JRow.key := by
    rw [hkeys]
    exact List.mem_map.mpr ⟨j, hj, rfl⟩
  obtain ⟨j', hj', hkey⟩ := List.mem_map.mp this
  exact ⟨j', hj', congrArg Prod.fst hkey, congrArg Prod.snd hkey⟩

theorem leftJoinEvents_cover (P : List PRow) (H : List NEvent) (p : PRow) (hp : p ∈ P) :
    ∃ j ∈ leftJoinEvents P H, j.campaign_id = p.campaign_id ∧ j.date = p.date := by
  induction P with
  | nil => cases hp
  | cons p0 ps ih =>
    rcases List.mem_cons.mp hp with rfl | hp'
    · by_cases hms : (H.filter fun ev =>
          ev.campaign_id = p.campaign_id ∧ ev.date = p.date).isEmpty
      · refine ⟨⟨p.campaign_id, p.date, none, none, none, none⟩, ?_, rfl, rfl⟩
        rw [leftJoinEvents_cons, if_pos hms]
        exact List.mem_append_left _ (List.mem_singleton.mpr rfl)
      · have hne : (H.filter fun ev =>
            ev.campaign_id = p.campaign_id ∧ ev.date = p.date) ≠ [] := by
          intro h
          rw [h] at hms
          exact hms rfl
        obtain ⟨ev, hev⟩ := List.exists_mem_of_ne_nil _ hne
        refine ⟨⟨p.campaign_id, p.date, ev.value_old, ev.value_new, none, none⟩, ?_, rfl, rfl⟩
        rw [leftJoinEvents_cons, if_neg hms]
        exact List.mem_append_left _ (List.mem_map.mpr ⟨ev, hev, rfl⟩)
    · obtain ⟨j, hj, hprop⟩ := ih hp'
      refine ⟨j, ?_, hprop⟩
      rw [leftJoinEvents_cons]
      exact List.mem_append_right _ hj

/-!
## The two branches of `restore_history` before the cast
-/

theorem restoreJoined_empty (P : List PRow) (cv : List CVRow) (name : Dim) :
    restoreJoined P [] cv name = mergeCVPlaceholder name P cv := rfl

theorem restoreJoined_nonempty (P : List PRow) (H : List NEvent) (cv : List CVRow)
    (name : Dim) (h : H ≠ []) :
    restoreJoined P H cv name =
      mergeCV name
        ((ffillNew (fun _ => none) (bfillOld (leftJoinEvents P H)).1).1.map combineFill)
        cv := by
  rw [restoreJoined, if_neg]
  intro hc
  exact h (List.isEmpty_iff.mp hc)

/-- Restricting the nonempty branch to campaign `e` restricts the grid. -/
theorem restoreJoined_filter_nonempty (P : List PRow) (H : List NEvent) (cv : List CVRow)
    (name : Dim) (e : ℕ) (h : H ≠ []) :
    (restoreJoined P H cv name).filter (fun o => o.campaign_id = e) =
      mergeCV name
        ((ffillNew (fun _ => none)
          (bfillOld (leftJoinEvents (P.filter fun p => p.campaign_id = e) H)).1).1.map
          combineFill)
        cv := by
  rw [restoreJoined_nonempty P H cv name h, mergeCV_filter, combineFill_filter,
    ffillNew_filter, bfillOld, (bfillOldAux_filter e _ _).1, leftJoinEvents_filter]
  rfl

/-- Restricting the empty branch to campaign `e` restricts the grid. -/
theorem restoreJoined_filter_empty (P : List PRow) (cv : List CVRow)
    (name : Dim) (e : ℕ) :
    (restoreJoined P [] cv name).filter (fun o => o.campaign_id = e) =
      mergeCVPlaceholder name (P.filter fun p => p.campaign_id = e) cv := by
  rw [restoreJoined_empty, mergeCVPlaceholder_filter]

/-- Every placeholder row keeps at least one row with its key through the
whole pre-cast pipeline. -/
theorem restoreJoined_cover (P : List PRow) (H : List NEvent) (cv : List CVRow)
    (name : Dim) (p : PRow) (hp : p ∈ P) :
    ∃ o ∈ restoreJoined P H cv name, o.campaign_id = p.campaign_id ∧ o.date = p.date := by
  by_cases h : H = []
  · subst h
    rw [restoreJoined_empty]
    exact mergeCVPlaceholder_cover name P cv p hp
  · rw [restoreJoined_nonempty P H cv name h]
    obtain ⟨j, hj, hjc, hjd⟩ := leftJoinEvents_cover P H p hp
    obtain ⟨j', hj', hjc', hjd'⟩ :=
      mem_key_transfer (bfillOldAux_keys (fun _ => none) (leftJoinEvents P H)) hj
    obtain ⟨j'', hj'', hjc'', hjd''⟩ :=
      mem_key_transfer (ffillNew_keys (fun _ => none) (bfillOld (leftJoinEvents P H)).1) hj'
    have hcmem : combineFill j'' ∈
        (ffillNew (fun _ => none) (bfillOld (leftJoinEvents P H)).1).1.map combineFill :=
      List.mem_map.mpr ⟨j'', hj'', rfl⟩
    obtain ⟨o, ho, hoc, hod⟩ := mergeCV_cover name _ cv (combineFill j'') hcmem
    refine ⟨o, ho, ?_, ?_⟩
    · rw [hoc, combineFill_campaign, hjc'', hjc', hjc]
    · rw [hod, show (combineFill j'').date = j''.date from rfl, hjd'', hjd', hjd]

/-!
## Campaigns without events fall back to the snapshot
-/

/-- Filling an all-null block changes nothing: no event value to propagate. -/
theorem fill_all_null_block (dates : List ℤ) (e : ℕ) :
    ((ffillNew (fun _ => none)
      (bfillOld (dates.map fun d => (⟨e, d, none, none, none, none⟩ : JRow))).1).1.map
      combineFill) =
      dates.map fun d => (⟨e, d, none, none, none, none⟩ : JRow) := by
  have hnone1 : ∀ r ∈ dates.map fun d => (⟨e, d, none, none, none, none⟩ : JRow),
      r.value_old = none := by
    intro r hr
    obtain ⟨d, _, rfl⟩ := List.mem_map.mp hr
    rfl
  rw [bfillOld, (bfillOldAux_all_none _ (fun _ => none) hnone1).1]
  have hnone2 : ∀ r ∈ (dates.map fun d => (⟨e, d, none, none, none, none⟩ : JRow)).map
      (fun r => { r with filled_backward := (fun _ => none) r.campaign_id }),
      r.value_new = none := by
    intro r hr
    obtain ⟨r0, hr0, rfl⟩ := List.mem_map.mp hr
    obtain ⟨d, _, rfl⟩ := List.mem_map.mp hr0
    rfl
  rw [(ffillNew_all_none _ (fun _ => none) hnone2).1]
  rw [List.map_map, List.map_map, List.map_map]
  apply List.map_congr_left
  intro d _
  rfl

/-- A campaign with no event in the normalized history gets, at every grid
date, either a null (when no snapshot row matches) or a snapshot value. -/
theorem restoreJoined_noevent_val (E : List ℕ) (dates : List ℤ) (H : List NEvent)
    (cv : List CVRow) (name : Dim) (e : ℕ)
    (hE : E.Nodup) (he : e ∈ E) (hnoev : ∀ ev ∈ H, ev.campaign_id ≠ e) :
    ∀ o ∈ restoreJoined (placeholders E dates) H cv name, o.campaign_id = e →
      ((o.value = none ∧ ∀ c ∈ cv, c.campaign_id ≠ e) ∨
        ∃ c ∈ cv, c.campaign_id = e ∧ o.value = c.attr name) := by
  intro o ho hoc
  have hofilter : o ∈ (restoreJoined (placeholders E dates) H cv name).filter
      (fun o => o.campaign_id = e) :=
    List.mem_filter.mpr ⟨ho, decide_eq_true hoc⟩
  by_cases h : H = []
  · subst h
    rw [restoreJoined_filter_empty, placeholders_filter_mem E dates e hE he] at hofilter
    obtain ⟨p, hp, hpc, hpd, hval⟩ := mergeCVPlaceholder_mem_elim name _ cv o hofilter
    obtain ⟨d, _, rfl⟩ := List.mem_map.mp hp
    rcases hval with ⟨hv, hcv⟩ | ⟨c, hc, hcamp, hv⟩
    · exact Or.inl ⟨hv, hcv⟩
    · exact Or.inr ⟨c, hc, hcamp, hv⟩
  · rw [restoreJoined_filter_nonempty _ _ _ _ _ h,
      placeholders_filter_mem E dates e hE he,
      leftJoinEvents_nomatch dates H e hnoev, fill_all_null_block] at hofilter
    obtain ⟨r, hr, hrc, hrd, hval⟩ := mergeCV_mem_elim name _ cv o hofilter
    obtain ⟨d, _, rfl⟩ := List.mem_map.mp hr
    rcases hval with ⟨hv, hcv⟩ | ⟨c, hc, hcamp, hv⟩
    · exact Or.inl ⟨hv, hcv⟩
    · exact Or.inr ⟨c, hc, hcamp, hv⟩

/-!
## The step-function fill for a single event
-/

/-- Backward fill of campaign `e`'s block when its only event sits between
the strictly-earlier dates `ds1` and the strictly-later dates `ds2`:
`value_old = a` propagates backward over `ds1` and onto the event row. -/
theorem bfill_single_block (ds1 ds2 : List ℤ) (e : ℕ) (k : ℤ) (a b : ℚ) :
    (bfillOld (ds1.map (fun d => (⟨e, d, none, none, none, none⟩ : JRow)) ++
      (⟨e, k, some a, some b, none, none⟩ : JRow) ::
        ds2.map (fun d => (⟨e, d, none, none, none, none⟩ : JRow)))).1 =
      ds1.map (fun d => (⟨e, d, none, none, some a, none⟩ : JRow)) ++
      (⟨e, k, some a, some b, some a, none⟩ : JRow) ::
        ds2.map (fun d => (⟨e, d, none, none, none, none⟩ : JRow)) := by
  have hold2 : ∀ r ∈ ds2.map (fun d => (⟨e, d, none, none, none, none⟩ : JRow)),
      r.value_old = none := by
    intro r hr
    obtain ⟨d, _, rfl⟩ := List.mem_map.mp hr
    rfl
  have hold1 : ∀ r ∈ ds1.map (fun d => (⟨e, d, none, none, none, none⟩ : JRow)),
      r.value_old = none := by
    intro r hr
    obtain ⟨d, _, rfl⟩ := List.mem_map.mp hr
    rfl
  have hT := bfillOldAux_all_none
    (ds2.map fun d => (⟨e, d, none, none, none, none⟩ : JRow)) (fun _ => none) hold2
  have hS1 : (bfillOldAux
      (bfillOldAux (fun _ => none)
        (ds2.map fun d => (⟨e, d, none, none, none, none⟩ : JRow))).2
      [⟨e, k, some a, some b, none, none⟩]).1 =
      [⟨e, k, some a, some b, some a, none⟩] := by
    rw [bfillOldAux_cons, bfillOldAux_nil]
    dsimp only
    rw [fillna_some]
  have hS2 : ∀ c, (bfillOldAux
      (bfillOldAux (fun _ => none)
        (ds2.map fun d => (⟨e, d, none, none, none, none⟩ : JRow))).2
      [⟨e, k, some a, some b, none, none⟩]).2 c = if c = e then some a else none := by
    intro c
    rw [bfillOldAux_cons, bfillOldAux_nil]
    dsimp only
    by_cases hc : c = e
    · subst hc
      rw [upd_self, fillna_some, if_pos rfl]
    · rw [upd_ne _ _ _ hc, if_neg hc, hT.2 c]
  have hL1 := bfillOldAux_all_none
    (ds1.map fun d => (⟨e, d, none, none, none, none⟩ : JRow))
    (bfillOldAux
      (bfillOldAux (fun _ => none)
        (ds2.map fun d => (⟨e, d, none, none, none, none⟩ : JRow))).2
      [⟨e, k, some a, some b, none, none⟩]).2 hold1
  rw [bfillOld,
    show ds1.map (fun d => (⟨e, d, none, none, none, none⟩ : JRow)) ++
      (⟨e, k, some a, some b, none, none⟩ : JRow) ::
        ds2.map (fun d => (⟨e, d, none, none, none, none⟩ : JRow)) =
      ds1.map (fun d => (⟨e, d, none, none, none, none⟩ : JRow)) ++
      ([(⟨e, k, some a, some b, none, none⟩ : JRow)] ++
        ds2.map (fun d => (⟨e, d, none, none, none, none⟩ : JRow))) from rfl,
    bfillOldAux_append, bfillOldAux_append]
  dsimp only
  rw [hT.1, hS1, hL1.1, List.map_map, List.map_map, List.singleton_append]
  refine congrArg₂ (· ++ ·) ?_ (congrArg₂ (· :: ·) rfl ?_)
  · apply List.map_congr_left
    intro d _
    show ({ (⟨e, d, none, none, none, none⟩ : JRow) with
        filled_backward := _ } : JRow) = _
    rw [hS2 ((⟨e, d, none, none, none, none⟩ : JRow)).campaign_id, if_pos rfl]
  · apply List.map_congr_left
    intro d _
    rfl

/-- Forward fill of campaign `e`'s block around its single event:
`value_new = b` propagates forward from the event row over `ds2`. -/
theorem ffill_single_block (ds1 ds2 : List ℤ) (e : ℕ) (k : ℤ) (a b : ℚ) :
    (ffillNew (fun _ => none)
      (ds1.map (fun d => (⟨e, d, none, none, some a, none⟩ : JRow)) ++
        (⟨e, k, some a, some b, some a, none⟩ : JRow) ::
          ds2.map (fun d => (⟨e, d, none, none, none, none⟩ : JRow)))).1 =
      ds1.map (fun d => (⟨e, d, none, none, some a, none⟩ : JRow)) ++
      (⟨e, k, some a, some b, some a, some b⟩ : JRow) ::
        ds2.map (fun d => (⟨e, d, none, none, none, some b⟩ : JRow)) := by
  have hnew1 : ∀ r ∈ ds1.map (fun d => (⟨e, d, none, none, some a, none⟩ : JRow)),
      r.value_new = none := by
    intro r hr
    obtain ⟨d, _, rfl⟩ := List.mem_map.mp hr
    rfl
  have hnew2 : ∀ r ∈ ds2.map (fun d => (⟨e, d, none, none, none, none⟩ : JRow)),
      r.value_new = none := by
    intro r hr
    obtain ⟨d, _, rfl⟩ := List.mem_map.mp hr
    rfl
  have hF1 := ffillNew_all_none
    (ds1.map fun d => (⟨e, d, none, none, some a, none⟩ : JRow)) (fun _ => none) hnew1
  have hFev1 : (ffillNew
      (ffillNew (fun _ => none)
        (ds1.map fun d => (⟨e, d, none, none, some a, none⟩ : JRow))).2
      [⟨e, k, some a, some b, some a, none⟩]).1 =
      [⟨e, k, some a, some b, some a, some b⟩] := by
    rw [ffillNew_cons, ffillNew_nil]
    dsimp only
    rw [fillna_some]
  have hFev2 : ∀ c, (ffillNew
      (ffillNew (fun _ => none)
        (ds1.map fun d => (⟨e, d, none, none, some a, none⟩ : JRow))).2
      [⟨e, k, some a, some b, some a, none⟩]).2 c =
      if c = e then some b else none := by
    intro c
    rw [ffillNew_cons, ffillNew_nil]
    dsimp only
    by_cases hc : c = e
    · subst hc
      rw [upd_self, fillna_some, if_pos rfl]
    · rw [upd_ne _ _ _ hc, if_neg hc, hF1.2 c]
  have hF2 := ffillNew_all_none
    (ds2.map fun d => (⟨e, d, none, none, none, none⟩ : JRow))
    (ffillNew
      (ffillNew (fun _ => none)
        (ds1.map fun d => (⟨e, d, none, none, some a, none⟩ : JRow))).2
      [⟨e, k, some a, some b, some a, none⟩]).2 hnew2
  rw [show ds1.map (fun d => (⟨e, d, none, none, some a, none⟩ : JRow)) ++
      (⟨e, k, some a, some b, some a, none⟩ : JRow) ::
        ds2.map (fun d => (⟨e, d, none, none, none, none⟩ : JRow)) =
      ds1.map (fun d => (⟨e, d, none, none, some a, none⟩ : JRow)) ++
      ([(⟨e, k, some a, some b, some a, none⟩ : JRow)] ++
        ds2.map (fun d => (⟨e, d, none, none, none, none⟩ : JRow))) from rfl,
    ffillNew_append, ffillNew_append]
  dsimp only
  rw [hF1.1, hFev1, hF2.1, List.map_map, List.map_map, List.singleton_append]
  refine congrArg₂ (· ++ ·) ?_ (congrArg₂ (· :: ·) rfl ?_)
  · apply List.map_congr_left
    intro d _
    rfl
  · apply List.map_congr_left
    intro d _
    show ({ (⟨e, d, none, none, none, none⟩ : JRow) with
        filled_forward := _ } : JRow) = _
    rw [hFev2 ((⟨e, d, none, none, none, none⟩ : JRow)).campaign_id, if_pos rfl]

/-- The step-function fill: a campaign whose only normalized event in the
window is `(k, a → b)` resolves to `a` strictly before `k` and to `b` on and
after `k`, before the cast, for every snapshot input. -/
theorem restoreJoined_stepfn (E : List ℕ) (dates : List ℤ) (H : List NEvent)
    (cv : List CVRow) (name : Dim) (e : ℕ) (k : ℤ) (a b : ℚ)
    (hE : E.Nodup) (he : e ∈ E) (hsort : dates.Pairwise (· < ·)) (hk : k ∈ dates)
    (hev : H.filter (fun ev => ev.campaign_id = e) = [⟨k, e, some a, some b⟩]) :
    ∀ o ∈ restoreJoined (placeholders E dates) H cv name, o.campaign_id = e →
      o.value = some (if o.date < k then a else b) := by
  have hH : H ≠ [] := by
    intro h
    rw [h] at hev
    cases hev
  obtain ⟨ds1, ds2, rfl⟩ := List.append_of_mem hk
  rw [List.pairwise_append] at hsort
  have h1 : ∀ d ∈ ds1, d < k := fun d hd => hsort.2.2 d hd k (List.mem_cons_self k ds2)
  have h2 : ∀ d ∈ ds2, k < d := (List.pairwise_cons.mp hsort.2.1).1
  intro o ho hoc
  have hofilter : o ∈ (restoreJoined (placeholders E (ds1 ++ k :: ds2)) H cv name).filter
      (fun o => o.campaign_id = e) :=
    List.mem_filter.mpr ⟨ho, decide_eq_true hoc⟩
  rw [restoreJoined_filter_nonempty _ _ _ _ _ hH,
    placeholders_filter_mem E (ds1 ++ k :: ds2) e hE he,
    leftJoinEvents_single (ds1 ++ k :: ds2) H e k (some a) (some b) hev] at hofilter
  have hmapsplit : ((ds1 ++ k :: ds2).map fun d =>
      if d = k then (⟨e, d, some a, some b, none, none⟩ : JRow)
      else ⟨e, d, none, none, none, none⟩) =
      ds1.map (fun d => (⟨e, d, none, none, none, none⟩ : JRow)) ++
      (⟨e, k, some a, some b, none, none⟩ : JRow) ::
        ds2.map (fun d => (⟨e, d, none, none, none, none⟩ : JRow)) := by
    rw [List.map_append, List.map_cons, if_pos rfl]
    congr 1
    · apply List.map_congr_left
      intro d hd
      rw [if_neg (ne_of_lt (h1 d hd))]
    · congr 1
      apply List.map_congr_left
      intro d hd
      rw [if_neg (ne_of_gt (h2 d hd))]
  rw [hmapsplit, bfill_single_block, ffill_single_block] at hofilter
  rw [List.map_append, List.map_cons, List.map_map, List.map_map] at hofilter
  obtain ⟨r, hr, hrc, hrd, hval⟩ := mergeCV_mem_elim name _ cv o hofilter
  have hvalr : o.value = fillna r.filled_forward none ∨
      ∃ c ∈ cv, o.value = fillna r.filled_forward (c.attr name) := by
    rcases hval with ⟨hv, _⟩ | ⟨c, hc, _, hv⟩
    · exact Or.inl hv
    · exact Or.inr ⟨c, hc, hv⟩
  rcases List.mem_append.mp hr with hr1 | hr23
  · obtain ⟨d, hd, rfl⟩ := List.mem_map.mp hr1
    rw [hrd]
    rw [if_pos (show ((combineFill ∘ fun d =>
        (⟨e, d, none, none, some a, none⟩ : JRow)) d).date < k from h1 d hd)]
    rcases hvalr with hv | ⟨c, _, hv⟩ <;> rw [hv] <;> exact rfl
  · rcases List.mem_cons.mp hr23 with rfl | hr2
    · rw [hrd]
      rw [if_neg (show ¬(combineFill
          (⟨e, k, some a, some b, some a, some b⟩ : JRow)).date < k from lt_irrefl k)]
      rcases hvalr with hv | ⟨c, _, hv⟩ <;> rw [hv] <;> exact rfl
    · obtain ⟨d, hd, rfl⟩ := List.mem_map.mp hr2
      rw [hrd]
      rw [if_neg (show ¬((combineFill ∘ fun d =>
          (⟨e, d, none, none, none, some b⟩ : JRow)) d).date < k from
        not_lt_of_gt (h2 d hd))]
      rcases hvalr with hv | ⟨c, _, hv⟩ <;> rw [hv] <;> exact rfl

/-!
## Grid membership
-/

theorem mem_placeholders (E : List ℕ) (dates : List ℤ) (e : ℕ) (d : ℤ)
    (he : e ∈ E) (hd : d ∈ dates) : (⟨e, d⟩ : PRow) ∈ placeholders E dates :=
  List.mem_flatMap.mpr ⟨e, he, List.mem_map.mpr ⟨d, hd, rfl⟩⟩

theorem placeholders_mem_elim (E : List ℕ) (dates : List ℤ) (p : PRow)
    (hp : p ∈ placeholders E dates) : p.campaign_id ∈ E ∧ p.date ∈ dates := by
  obtain ⟨c, hc, hmem⟩ := List.mem_flatMap.mp hp
  obtain ⟨d, hd, rfl⟩ := List.mem_map.mp hmem
  exact ⟨hc, hd⟩

/-!
## Claim theorems on `restore_history`
-/

/-- C1: if entity `e`'s only normalized event for an attribute in the window
is on date `k`, changing the value from `a` to `b`, then `restore_history`
assigns `a` to every grid date strictly before `k` and `b` to every grid
date on or after `k` (the grid lists each entity's dates in ascending
order). -/
theorem C1_step_function_fill (E : List ℕ) (dates : List ℤ) (H : List NEvent)
    (cv : List CVRow) (name : Dim) (e : ℕ) (k : ℤ) (a b : ℚ) (out : List OutRow)
    (hE : E.Nodup) (he : e ∈ E)
    (hsort : dates.Pairwise (· < ·)) (hk : k ∈ dates)
    (hev : H.filter (fun ev => ev.campaign_id = e) = [⟨k, e, some a, some b⟩])
    (ha : castVal name a = a) (hb : castVal name b = b)
    (hok : restore_history (placeholders E dates) H cv name = Except.ok out) :
    (∀ r ∈ out, r.campaign_id = e →
      (r.date < k → r.value = some a) ∧ (k ≤ r.date → r.value = some b)) ∧
    ∀ d ∈ dates, ∃ r ∈ out, r.campaign_id = e ∧ r.date = d := by
  have helim := castColumn_ok_elim name _ out hok
  constructor
  · intro r hrout hrc
    rw [helim.1] at hrout
    obtain ⟨o, ho, rfl⟩ := List.mem_map.mp hrout
    have hoc : o.campaign_id = e := hrc
    have hval := restoreJoined_stepfn E dates H cv name e k a b hE he hsort hk hev o ho hoc
    have hvcast : (castRowF name o).value = Option.map (castVal name) o.value := rfl
    constructor
    · intro hlt
      rw [hvcast, hval, Option.map_some']
      rw [if_pos (show o.date < k from hlt), ha]
    · intro hge
      rw [hvcast, hval, Option.map_some']
      rw [if_neg (not_lt.mpr (show k ≤ o.date from hge)), hb]
  · intro d hd
    obtain ⟨o, ho, hoc, hod⟩ :=
      restoreJoined_cover (placeholders E dates) H cv name ⟨e, d⟩
        (mem_placeholders E dates e d he hd)
    refine ⟨castRowF name o, ?_, hoc, hod⟩
    rw [helim.1]
    exact List.mem_map.mpr ⟨o, ho, rfl⟩

/-- C3: an entity with zero normalized events for an attribute anywhere in
the window reconstructs, at every window date, to its snapshot value; an
empty event table is not an error (given snapshot rows with usable values
for the active entities). -/
theorem C3_no_event_fallback (E : List ℕ) (dates : List ℤ) (H : List NEvent)
    (cv : List CVRow) (name : Dim) (e : ℕ) (cvr : CVRow) (s : ℚ)
    (hE : E.Nodup) (he : e ∈ E)
    (hnoev : ∀ ev ∈ H, ev.campaign_id ≠ e)
    (hcv : cv.filter (fun c => c.campaign_id = e) = [cvr])
    (hs : cvr.attr name = some s) (hcast : castVal name s = s) :
    (∀ out, restore_history (placeholders E dates) H cv name = Except.ok out →
      (∀ r ∈ out, r.campaign_id = e → r.value = some s) ∧
      ∀ d ∈ dates, ∃ r ∈ out, r.campaign_id = e ∧ r.date = d) ∧
    (H = [] → (∀ c ∈ cv, c.attr name ≠ none) →
      (∀ c ∈ E, ∃ cvc ∈ cv, cvc.campaign_id = c) →
      ∃ out, restore_history (placeholders E dates) H cv name = Except.ok out) := by
  constructor
  · intro out hok
    have helim := castColumn_ok_elim name _ out hok
    constructor
    · intro r hrout hrc
      rw [helim.1] at hrout
      obtain ⟨o, ho, rfl⟩ := List.mem_map.mp hrout
      have hoc : o.campaign_id = e := hrc
      have hval := restoreJoined_noevent_val E dates H cv name e hE he hnoev o ho hoc
      rcases hval with ⟨_, hnone⟩ | ⟨c, hc, hcamp, hv⟩
      · exfalso
        have : cvr ∈ cv.filter fun c => c.campaign_id = e := by
          rw [hcv]
          exact List.mem_singleton.mpr rfl
        have hmem := List.mem_filter.mp this
        exact hnone cvr hmem.1 (of_decide_eq_true hmem.2)
      · have : c ∈ cv.filter fun c => c.campaign_id = e :=
          List.mem_filter.mpr ⟨hc, decide_eq_true hcamp⟩
        rw [hcv] at this
        rcases List.mem_singleton.mp this with rfl
        have hvo : o.value = some s := by rw [hv, hs]
        show (castRowF name o).value = some s
        rw [show (castRowF name o).value = Option.map (castVal name) o.value from rfl,
          hvo, Option.map_some', hcast]
    · intro d hd
      obtain ⟨o, ho, hoc, hod⟩ :=
        restoreJoined_cover (placeholders E dates) H cv name ⟨e, d⟩
          (mem_placeholders E dates e d he hd)
      refine ⟨castRowF name o, ?_, hoc, hod⟩
      rw [helim.1]
      exact List.mem_map.mpr ⟨o, ho, rfl⟩
  · intro hH hvals hfull
    subst hH
    refine ⟨_, castColumn_ok_of_all_some name _ ?_⟩
    intro r hr
    rw [restoreJoined_empty] at hr
    obtain ⟨p, hp, hpc, hpd, hval⟩ := mergeCVPlaceholder_mem_elim name _ cv r hr
    rcases hval with ⟨_, hnone⟩ | ⟨c, hc, _, hv⟩
    · exfalso
      obtain ⟨cvc, hcvc, hcamp⟩ :=
        hfull p.campaign_id (placeholders_mem_elim E dates p hp).1
      exact hnone cvc hcvc hcamp
    · rw [hv]
      exact hvals c hc

/-- C7: after filling, the integer-typed attributes hold only whole numbers
(every value is an integer cast), while the `target_roas` column is returned
exactly as it stood before the cast step, untouched. -/
theorem C7_integer_cast (pl : List PRow) (hist : List NEvent) (cv : List CVRow) :
    (∀ name out, name ≠ Dim.target_roas →
      restore_history pl hist cv name = Except.ok out →
      ∀ r ∈ out, ∃ z : ℤ, r.value = some (z : ℚ)) ∧
    restore_history pl hist cv Dim.target_roas =
      Except.ok (restoreJoined pl hist cv Dim.target_roas) := by
  constructor
  · intro name out hname hok r hrout
    have helim := castColumn_ok_elim name _ out hok
    rw [helim.1] at hrout
    obtain ⟨o, ho, rfl⟩ := List.mem_map.mp hrout
    cases hv : o.value with
    | none => exact absurd hv (helim.2 hname o ho)
    | some v =>
      refine ⟨truncQ v, ?_⟩
      show Option.map (castVal name) o.value = some ((truncQ v : ℤ) : ℚ)
      rw [hv, Option.map_some']
      unfold castVal
      rw [if_neg hname]
  · exact castColumn_roas _

/-- C8 (amended): for an entity with no events and no usable snapshot value
for an attribute, the integer cast raises for `budget_amount`/`target_cpa`
(aborting the run), but for `target_roas` the null value is silently kept in
the output with no error. -/
theorem C8_missing_snapshot (E : List ℕ) (dates : List ℤ) (H : List NEvent)
    (cv : List CVRow) (name : Dim) (e : ℕ)
    (hE : E.Nodup) (he : e ∈ E) (hdne : dates ≠ [])
    (hnoev : ∀ ev ∈ H, ev.campaign_id ≠ e)
    (hcvnull : ∀ c ∈ cv, c.campaign_id = e → c.attr name = none) :
    (name ≠ Dim.target_roas →
      ∀ out, restore_history (placeholders E dates) H cv name ≠ Except.ok out) ∧
    (name = Dim.target_roas →
      ∃ out, restore_history (placeholders E dates) H cv name = Except.ok out ∧
        ∀ r ∈ out, r.campaign_id = e → r.value = none) := by
  have hnullrows : ∀ o ∈ restoreJoined (placeholders E dates) H cv name,
      o.campaign_id = e → o.value = none := by
    intro o ho hoc
    rcases restoreJoined_noevent_val E dates H cv name e hE he hnoev o ho hoc with
      ⟨hv, _⟩ | ⟨c, hc, hcamp, hv⟩
    · exact hv
    · rw [hv]
      exact hcvnull c hc hcamp
  obtain ⟨d, hd⟩ := List.exists_mem_of_ne_nil dates hdne
  obtain ⟨o, ho, hoc, _⟩ := restoreJoined_cover (placeholders E dates) H cv name ⟨e, d⟩
    (mem_placeholders E dates e d he hd)
  constructor
  · intro hname out
    exact castColumn_ne_ok_of_none name _ o hname ho (hnullrows o ho hoc) out
  · intro hname
    subst hname
    exact ⟨_, castColumn_roas _, hnullrows⟩

/-- C8 (counterexample): an entity with an empty snapshot table and no
events does **not** make the run error on `target_roas` — the whole window
is returned with a silent null value. -/
theorem C8_counterexample :
    restore_history (placeholders [1] (datesWindow 29)) [] [] Dim.target_roas =
      Except.ok ((datesWindow 29).map fun d => ⟨d, 1, none⟩) ∧
    (⟨0, 1, none⟩ : OutRow) ∈ (datesWindow 29).map fun d => (⟨d, 1, none⟩ : OutRow) := by
  decide

theorem C8_missing_snapshot_witness :
    (∀ out, restore_history (placeholders [1] [0]) [] [] Dim.budget_amount ≠
      Except.ok out) ∧
    ∃ out, restore_history (placeholders [1] [0]) [] [] Dim.target_roas =
        Except.ok out ∧
      ∀ r ∈ out, r.campaign_id = 1 → r.value = none := by
  constructor
  · exact (C8_missing_snapshot [1] [0] [] [] Dim.budget_amount 1 (by decide) (by decide)
      (by decide) (by decide) (by decide)).1 (by decide)
  · exact (C8_missing_snapshot [1] [0] [] [] Dim.target_roas 1 (by decide) (by decide)
      (by decide) (by decide) (by decide)).2 rfl

theorem C1_step_function_fill_witness :
    (∀ r ∈ [(⟨0, 1, some 5⟩ : OutRow), ⟨1, 1, some 7⟩, ⟨2, 1, some 7⟩],
      r.campaign_id = 1 →
      (r.date < 1 → r.value = some 5) ∧ (1 ≤ r.date → r.value = some 7)) ∧
    ∀ d ∈ [(0 : ℤ), 1, 2],
      ∃ r ∈ [(⟨0, 1, some 5⟩ : OutRow), ⟨1, 1, some 7⟩, ⟨2, 1, some 7⟩],
        r.campaign_id = 1 ∧ r.date = d :=
  C1_step_function_fill [1] [0, 1, 2] [⟨1, 1, some 5, some 7⟩] []
    Dim.budget_amount 1 1 5 7
    [⟨0, 1, some 5⟩, ⟨1, 1, some 7⟩, ⟨2, 1, some 7⟩]
    (by decide) (by decide) (by decide) (by decide) (by decide) (by decide) (by decide)
    (by decide)

theorem C3_no_event_fallback_witness :
    (∀ out, restore_history (placeholders [1] [0, 1])
        [⟨0, 2, some 1, some 2⟩] [⟨1, some 100, some 5, none⟩] Dim.budget_amount =
        Except.ok out →
      (∀ r ∈ out, r.campaign_id = 1 → r.value = some 100) ∧
      ∀ d ∈ [(0 : ℤ), 1], ∃ r ∈ out, r.campaign_id = 1 ∧ r.date = d) ∧
    ([(⟨0, 2, some 1, some 2⟩ : NEvent)] = [] →
      (∀ c ∈ [(⟨1, some 100, some 5, none⟩ : CVRow)], c.attr Dim.budget_amount ≠ none) →
      (∀ c ∈ [1], ∃ cvc ∈ [(⟨1, some 100, some 5, none⟩ : CVRow)], cvc.campaign_id = c) →
      ∃ out, restore_history (placeholders [1] [0, 1])
          [⟨0, 2, some 1, some 2⟩] [⟨1, some 100, some 5, none⟩] Dim.budget_amount =
        Except.ok out) :=
  C3_no_event_fallback [1] [0, 1] [⟨0, 2, some 1, some 2⟩]
    [⟨1, some 100, some 5, none⟩] Dim.budget_amount 1 ⟨1, some 100, some 5, none⟩ 100
    (by decide) (by decide) (by decide) (by decide) (by decide) (by decide)

theorem C7_integer_cast_witness :
    ∃ z : ℤ, (⟨0, 1, some 7⟩ : OutRow).value = some (z : ℚ) :=
  (C7_integer_cast (placeholders [1] [0]) [] [⟨1, some 7, none, none⟩]).1
    Dim.budget_amount [⟨0, 1, some 7⟩] (by decide) (by decide)
    ⟨0, 1, some 7⟩ (by decide)

/-!
## Event normalization (`format_partial_change_history`)
-/

theorem lastSome_concat_some (l : List (Option ℚ)) (v : ℚ) :
    lastSome (l ++ [some v]) = some v := by
  unfold lastSome
  rw [List.foldl_append]
  rfl

theorem lastSome_of_getLast (g : List NEvent) (rlast : NEvent) (f : NEvent → Option ℚ)
    (hlast : g.getLast? = some rlast) (hsome : f rlast ≠ none) :
    lastSome (g.map f) = f rlast := by
  rcases List.eq_nil_or_concat g with rfl | ⟨g', x, rfl⟩
  · cases hlast
  · rw [List.concat_eq_append] at hlast ⊢
    rw [List.getLast?_concat] at hlast
    have hx : x = rlast := Option.some.inj hlast
    subst hx
    cases hfv : f x with
    | none => exact absurd hfv hsome
    | some v =>
      rw [List.map_append, List.map_singleton, hfv, lastSome_concat_some]

theorem groupLast_key_mem (l : List NEvent) (ev : NEvent) (hev : ev ∈ groupLast l) :
    ∃ r ∈ l, ev.date = r.date ∧ ev.campaign_id = r.campaign_id := by
  obtain ⟨key, hkey, rfl⟩ := List.mem_map.mp hev
  obtain ⟨r, hr, hkr⟩ := List.mem_map.mp (List.mem_dedup.mp hkey)
  exact ⟨r, hr, congrArg Prod.fst hkr.symm, congrArg Prod.snd hkr.symm⟩

theorem format_origin (df : List ChRow) (dim : Dim) (ev : NEvent)
    (hev : ev ∈ format_partial_change_history df dim) :
    ∃ r ∈ df, ev.date = r.change_date.day ∧ ev.campaign_id = r.campaign_id := by
  obtain ⟨rn, hrn, hd, hc⟩ := groupLast_key_mem _ ev hev
  obtain ⟨r, hr, rfl⟩ := List.mem_map.mp hrn
  exact ⟨r, hr, hd, hc⟩

theorem format_keys_nodup (df : List ChRow) (dim : Dim) :
    ((format_partial_change_history df dim).map NEvent.key).Nodup := by
  unfold format_partial_change_history groupLast
  rw [List.map_map]
  have hmc : ∀ key ∈ ((df.map (renameRow dim)).map fun r =>
      (r.date, r.campaign_id)).dedup,
      (NEvent.key ∘ fun key => (⟨key.1, key.2,
        lastSome ((((df.map (renameRow dim)).filter fun r =>
          r.date = key.1 ∧ r.campaign_id = key.2)).map NEvent.value_old),
        lastSome ((((df.map (renameRow dim)).filter fun r =>
          r.date = key.1 ∧ r.campaign_id = key.2)).map NEvent.value_new)⟩ : NEvent)) key =
      (key.2, key.1) := by
    intro key _
    rfl
  rw [List.map_congr_left hmc]
  apply List.Nodup.map
  · intro x y h
    exact Prod.ext (congrArg Prod.snd h) (congrArg Prod.fst h)
  · exact List.nodup_dedup _

/-- C5 (counterexample): two raw bid events on the same entity and day, the
later one carrying a null `new_target_cpa`; `groupby(...).last()` takes the
last *non-null* entry per column, so the output row mixes the two events and
is not the chronologically last row. -/
theorem C5_counterexample :
    format_partial_change_history
      [⟨7, ⟨5, 10⟩, none, none, some 1, some 2, none, none⟩,
       ⟨7, ⟨5, 20⟩, none, none, some 3, none, none, none⟩] Dim.target_cpa =
      [⟨5, 7, some 3, some 2⟩] ∧
    format_partial_change_history
      [⟨7, ⟨5, 10⟩, none, none, some 1, some 2, none, none⟩,
       ⟨7, ⟨5, 20⟩, none, none, some 3, none, none, none⟩] Dim.target_cpa ≠
      [⟨5, 7, some 3, none⟩] := by
  decide

/-- C5 (amended): normalization truncates each timestamp to its date and
keys the output uniquely by `(date, entity)`; per group each value column
keeps the last non-null entry in chronological order — in particular, when
every event of a group carries both values, the group collapses to exactly
its chronologically last row; empty input yields empty output. -/
theorem C5_event_normalization (df : List ChRow) (dim : Dim) :
    format_partial_change_history ([] : List ChRow) dim = [] ∧
    ((format_partial_change_history df dim).map NEvent.key).Nodup ∧
    (∀ ev ∈ format_partial_change_history df dim,
      ∃ r ∈ df, ev.date = r.change_date.day ∧ ev.campaign_id = r.campaign_id) ∧
    ∀ (d : ℤ) (c : ℕ) (rlast : NEvent),
      ((df.map (renameRow dim)).filter fun r =>
        r.date = d ∧ r.campaign_id = c).getLast? = some rlast →
      (∀ r ∈ (df.map (renameRow dim)).filter fun r =>
        r.date = d ∧ r.campaign_id = c,
        r.value_old ≠ none ∧ r.value_new ≠ none) →
      (⟨d, c, rlast.value_old, rlast.value_new⟩ : NEvent) ∈
        format_partial_change_history df dim := by
  refine ⟨rfl, format_keys_nodup df dim, format_origin df dim, ?_⟩
  intro d c rlast hlast hall
  have hg : (df.map (renameRow dim)).filter (fun r =>
      r.date = d ∧ r.campaign_id = c) ≠ [] := by
    intro h
    rw [h] at hlast
    cases hlast
  obtain ⟨rm, hrm⟩ := List.exists_mem_of_ne_nil _ hg
  have hrmm := List.mem_filter.mp hrm
  have hrmk := of_decide_eq_true hrmm.2
  have hkeymem : ((d, c) : ℤ × ℕ) ∈
      ((df.map (renameRow dim)).map fun r => (r.date, r.campaign_id)).dedup := by
    apply List.mem_dedup.mpr
    apply List.mem_map.mpr
    exact ⟨rm, hrmm.1, by rw [hrmk.1, hrmk.2]⟩
  have hrlastmem : rlast ∈ (df.map (renameRow dim)).filter fun r =>
      r.date = d ∧ r.campaign_id = c := by
    rcases List.eq_nil_or_concat ((df.map (renameRow dim)).filter fun r =>
        r.date = d ∧ r.campaign_id = c) with hnil | ⟨g', x, hcat⟩
    · exact absurd hnil hg
    · rw [List.concat_eq_append] at hcat
      rw [hcat, List.getLast?_concat] at hlast
      rw [hcat]
      rcases Option.some.inj hlast with rfl
      exact List.mem_append_right _ (List.mem_singleton.mpr rfl)
  have hallr := hall rlast hrlastmem
  unfold format_partial_change_history groupLast
  apply List.mem_map.mpr
  refine ⟨(d, c), hkeymem, ?_⟩
  have hold := lastSome_of_getLast _ rlast NEvent.value_old hlast hallr.1
  have hnew := lastSome_of_getLast _ rlast NEvent.value_new hlast hallr.2
  dsimp only
  rw [hold, hnew]

theorem C5_event_normalization_witness :
    (⟨5, 7, some 3, some 4⟩ : NEvent) ∈ format_partial_change_history
      [⟨7, ⟨5, 10⟩, none, none, some 1, some 2, none, none⟩,
       ⟨7, ⟨5, 20⟩, none, none, some 3, some 4, none, none⟩] Dim.target_cpa :=
  (C5_event_normalization
      [⟨7, ⟨5, 10⟩, none, none, some 1, some 2, none, none⟩,
       ⟨7, ⟨5, 20⟩, none, none, some 3, some 4, none, none⟩]
      Dim.target_cpa).2.2.2 5 7 ⟨5, 7, some 3, some 4⟩ (by decide) (by decide)

/-!
## The partition writer
-/

theorem exceptMap_ok_elim {ε α β : Type} (f : α → β) (x : Except ε α) (b : β)
    (h : x.map f = Except.ok b) : ∃ a, x = Except.ok a ∧ b = f a := by
  cases x with
  | ok a => exact ⟨a, rfl, (Except.ok.inj h).symm⟩
  | error e => cases h

theorem write_data_to_bq_conflict (sink : Sink) (d : ℤ) (data : List WideRow)
    (hmem : d ∈ sink.tables.map Prod.fst) (hfail : d ∉ sink.failing) :
    write_data_to_bq sink d data = Except.error WErr.conflict := by
  unfold write_data_to_bq
  rw [if_neg hfail, if_pos hmem]

theorem write_data_to_bq_other (sink : Sink) (d : ℤ) (data : List WideRow)
    (hfail : d ∈ sink.failing) :
    write_data_to_bq sink d data = Except.error WErr.other := by
  unfold write_data_to_bq
  rw [if_pos hfail]

theorem write_data_to_bq_fresh (sink : Sink) (d : ℤ) (data : List WideRow)
    (hmem : d ∉ sink.tables.map Prod.fst) (hfail : d ∉ sink.failing) :
    write_data_to_bq sink d data =
      Except.ok ⟨sink.tables ++ [(d, data)], sink.failing⟩ := by
  unfold write_data_to_bq
  rw [if_neg hfail, if_neg hmem]

/-- A completed loop never shrank the destination: the failing set is
untouched, existing tables persist, and every processed date's table
exists afterwards; moreover no processed date was a failing one. -/
theorem writeLoop_ok_props (wide : List WideRow) :
    ∀ (dates : List ℤ) (sink s : Sink) (out : List (ℤ × WriteOutcome)),
      writeLoop sink wide dates = Except.ok (s, out) →
      s.failing = sink.failing ∧
      (∀ x ∈ sink.tables.map Prod.fst, x ∈ s.tables.map Prod.fst) ∧
      (∀ d ∈ dates, d ∈ s.tables.map Prod.fst) ∧
      ∀ d ∈ dates, d ∉ sink.failing
  | [], sink, s, out, h => by
    have hs : sink = s := congrArg Prod.fst (Except.ok.inj h)
    subst hs
    exact ⟨rfl, fun x hx => hx, fun d hd => absurd hd (List.not_mem_nil d),
      fun d hd => absurd hd (List.not_mem_nil d)⟩
  | d :: rest, sink, s, out, h => by
    by_cases hfail : d ∈ sink.failing
    · rw [writeLoop, write_data_to_bq_other sink d _ hfail] at h
      cases h
    by_cases hmem : d ∈ sink.tables.map Prod.fst
    · rw [writeLoop, write_data_to_bq_conflict sink d _ hmem hfail] at h
      obtain ⟨⟨s', out'⟩, hrec, houtp⟩ := exceptMap_ok_elim _ _ _ h
      have hs : s' = s := congrArg Prod.fst houtp.symm
      rw [hs] at hrec
      obtain ⟨h1, h2, h3, h4⟩ := writeLoop_ok_props wide rest sink s out' hrec
      refine ⟨h1, h2, ?_, ?_⟩
      · intro d' hd'
        rcases List.mem_cons.mp hd' with rfl | hd'
        · exact h2 d' hmem
        · exact h3 d' hd'
      · intro d' hd'
        rcases List.mem_cons.mp hd' with rfl | hd'
        · exact hfail
        · exact h4 d' hd'
    · rw [writeLoop, write_data_to_bq_fresh sink d _ hmem hfail] at h
      obtain ⟨⟨s', out'⟩, hrec, houtp⟩ := exceptMap_ok_elim _ _ _ h
      have hs : s' = s := congrArg Prod.fst houtp.symm
      rw [hs] at hrec
      obtain ⟨h1, h2, h3, h4⟩ :=
        writeLoop_ok_props wide rest ⟨sink.tables ++ [(d, wide.filter fun r => r.date = d)],
          sink.failing⟩ s out' hrec
      have hdlift : ∀ x ∈ sink.tables.map Prod.fst, x ∈ s.tables.map Prod.fst := by
        intro x hx
        apply h2
        rw [List.map_append]
        exact List.mem_append_left _ hx
      refine ⟨h1, hdlift, ?_, ?_⟩
      · intro d' hd'
        rcases List.mem_cons.mp hd' with rfl | hd'
        · apply h2
          rw [List.map_append]
          exact List.mem_append_right _ (List.mem_singleton.mpr rfl)
        · exact h3 d' hd'
      · intro d' hd'
        rcases List.mem_cons.mp hd' with rfl | hd'
        · exact hfail
        · exact h4 d' hd'

/-- Every date whose table already exists (and is not failing) reports an
"already exists" conflict and leaves the sink unchanged. -/
theorem writeLoop_all_conflict (wide : List WideRow) :
    ∀ (dates : List ℤ) (s : Sink),
      (∀ d ∈ dates, d ∈ s.tables.map Prod.fst ∧ d ∉ s.failing) →
      writeLoop s wide dates =
        Except.ok (s, dates.map fun d => (d, WriteOutcome.alreadyExists))
  | [], s, _ => rfl
  | d :: rest, s, h => by
    have hd := h d (List.mem_cons_self d rest)
    rw [writeLoop, write_data_to_bq_conflict s d _ hd.1 hd.2,
      writeLoop_all_conflict wide rest s fun d' hd' => h d' (List.mem_cons_of_mem d hd')]
    rfl

/-- C6: during the per-date write loop an "already exists" outcome is caught
and reported without writing and the loop continues; any other write error
aborts the loop; and a rerun against the destination left by a completed run
conflicts on every date and writes nothing. -/
theorem C6_partition_writer (sink : Sink) (wide : List WideRow) :
    (∀ d rest, d ∈ sink.tables.map Prod.fst → d ∉ sink.failing →
      writeLoop sink wide (d :: rest) =
        (writeLoop sink wide rest).map fun p =>
          (p.1, (d, WriteOutcome.alreadyExists) :: p.2)) ∧
    (∀ d rest, d ∈ sink.failing →
      writeLoop sink wide (d :: rest) = Except.error WErr.other) ∧
    ∀ dates s out, writeLoop sink wide dates = Except.ok (s, out) →
      writeLoop s wide dates =
        Except.ok (s, dates.map fun d => (d, WriteOutcome.alreadyExists)) := by
  refine ⟨?_, ?_, ?_⟩
  · intro d rest hmem hfail
    rw [writeLoop, write_data_to_bq_conflict sink d _ hmem hfail]
  · intro d rest hfail
    rw [writeLoop, write_data_to_bq_other sink d _ hfail]
  · intro dates s out h
    obtain ⟨h1, _, h3, h4⟩ := writeLoop_ok_props wide dates sink s out h
    apply writeLoop_all_conflict
    intro d hd
    refine ⟨h3 d hd, ?_⟩
    rw [h1]
    exact h4 d hd

theorem C6_partition_writer_witness :
    (writeLoop ⟨[(0, []), (1, [])], []⟩ [] [0] =
      (writeLoop ⟨[(0, []), (1, [])], []⟩ [] []).map fun p =>
        (p.1, ((0 : ℤ), WriteOutcome.alreadyExists) :: p.2)) ∧
    (writeLoop ⟨[], [5]⟩ [] [5] = Except.error WErr.other) ∧
    writeLoop ⟨[(0, []), (1, [])], []⟩ [] [0, 1] =
      Except.ok (⟨[(0, []), (1, [])], []⟩,
        [((0 : ℤ), WriteOutcome.alreadyExists), (1, WriteOutcome.alreadyExists)]) := by
  refine ⟨?_, ?_, ?_⟩
  · exact (C6_partition_writer ⟨[(0, []), (1, [])], []⟩ []).1 0 [] (by decide) (by decide)
  · exact (C6_partition_writer ⟨[], [5]⟩ []).2.1 5 [] (by decide)
  · exact (C6_partition_writer ⟨[], []⟩ []).2.2 [0, 1] ⟨[(0, []), (1, [])], []⟩
      [(0, WriteOutcome.created), (1, WriteOutcome.created)] (by decide)

/-!
## The window and the placeholder grid
-/

theorem datesWindow_length (today : ℤ) : (datesWindow today).length = 29 := by
  rw [datesWindow, List.length_map, List.length_range]

theorem datesWindow_nodup (today : ℤ) : (datesWindow today).Nodup := by
  rw [datesWindow]
  refine List.Nodup.map ?_ (List.nodup_range 29)
  intro i j h
  have h' : today - 29 + (i : ℤ) = today - 29 + (j : ℤ) := h
  omega

theorem datesWindow_mem (today d : ℤ) :
    d ∈ datesWindow today ↔ today - 29 ≤ d ∧ d ≤ today - 1 := by
  constructor
  · intro h
    rw [datesWindow] at h
    obtain ⟨i, hi, rfl⟩ := List.mem_map.mp h
    have hi' := List.mem_range.mp hi
    omega
  · intro ⟨h1, h2⟩
    rw [datesWindow]
    apply List.mem_map.mpr
    exact ⟨(d - (today - 29)).toNat, List.mem_range.mpr (by omega), by omega⟩

theorem datesWindow_sorted (today : ℤ) : (datesWindow today).Pairwise (· < ·) := by
  rw [datesWindow, List.pairwise_map]
  apply List.Pairwise.imp ?_ (List.pairwise_lt_range 29)
  intro a b hab
  omega

theorem placeholders_length (E : List ℕ) (dates : List ℤ) :
    (placeholders E dates).length = E.length * dates.length := by
  induction E with
  | nil => simp [placeholders]
  | cons c cs ih =>
    rw [placeholders_cons, List.length_append, List.length_map, ih, List.length_cons]
    ring

theorem placeholders_keys (E : List ℕ) (dates : List ℤ) :
    (placeholders E dates).map PRow.key =
      E.flatMap fun c => dates.map fun d => ((c, d) : ℕ × ℤ) := by
  induction E with
  | nil => rfl
  | cons c cs ih =>
    rw [placeholders_cons, List.map_append, ih, List.flatMap_cons, List.map_map]
    rfl

theorem count_map_pair (c e : ℕ) (d : ℤ) (dates : List ℤ) :
    (dates.map fun d' => ((c, d') : ℕ × ℤ)).count (e, d) =
      if c = e then dates.count d else 0 := by
  induction dates with
  | nil => by_cases hc : c = e <;> simp [hc]
  | cons d0 ds ih =>
    rw [List.map_cons, List.count_cons, List.count_cons, ih]
    by_cases hc : c = e
    · subst hc
      by_cases hd : d = d0
      · subst hd
        simp
      · simp [hd]
    · have hne : ¬((e, d) = (c, d0)) := by
        intro h
        exact hc ((Prod.mk.injEq e d c d0).mp h).1.symm
      simp [hc, hne]

theorem count_flatMap_product (dates : List ℤ) (hD : dates.Nodup) (e : ℕ) (d : ℤ) :
    ∀ (E : List ℕ), E.Nodup →
      (E.flatMap fun c => dates.map fun d' => ((c, d') : ℕ × ℤ)).count (e, d) =
        if e ∈ E ∧ d ∈ dates then 1 else 0
  | [], _ => by simp
  | c :: cs, hE => by
    rw [List.flatMap_cons, List.count_append, count_map_pair,
      count_flatMap_product dates hD e d cs (List.nodup_cons.mp hE).2]
    by_cases hc : c = e
    · subst hc
      have hnot : c ∉ cs := (List.nodup_cons.mp hE).1
      by_cases hd : d ∈ dates
      · rw [if_pos rfl, if_neg (fun hand => hnot hand.1),
          if_pos ⟨List.mem_cons_self c cs, hd⟩,
          List.count_eq_one_of_mem hD hd]
      · rw [if_pos rfl, if_neg (fun hand => hd hand.2),
          if_neg (fun hand => hd hand.2), List.count_eq_zero_of_not_mem hd]
    · rw [if_neg hc]
      by_cases hmem : e ∈ cs ∧ d ∈ dates
      · rw [if_pos hmem, if_pos ⟨List.mem_cons_of_mem c hmem.1, hmem.2⟩]
      · rw [if_neg hmem, if_neg]
        intro hand
        rcases List.mem_cons.mp hand.1 with rfl | hecs
        · exact hc rfl
        · exact hmem ⟨hecs, hand.2⟩

/-- C9: the placeholder grid is the strict cross product of the active
entities with a contiguous window of exactly 29 dates ending the day before
the run date: the window has 29 duplicate-free dates spanning exactly
`[today-29, today-1]`, and each `(entity, date)` pair occurs exactly once in
the grid. -/
theorem C9_placeholder_grid (today : ℤ) (E : List ℕ) (hE : E.Nodup) :
    (datesWindow today).length = 29 ∧
    (datesWindow today).Nodup ∧
    (∀ d, d ∈ datesWindow today ↔ today - 29 ≤ d ∧ d ≤ today - 1) ∧
    ∀ e d, ((placeholders E (datesWindow today)).map PRow.key).count (e, d) =
      if e ∈ E ∧ d ∈ datesWindow today then 1 else 0 := by
  refine ⟨datesWindow_length today, datesWindow_nodup today, datesWindow_mem today, ?_⟩
  intro e d
  rw [placeholders_keys]
  exact count_flatMap_product (datesWindow today) (datesWindow_nodup today) e d E hE

theorem C9_placeholder_grid_witness :
    (datesWindow 100).length = 29 ∧
    (datesWindow 100).Nodup ∧
    (∀ d, d ∈ datesWindow 100 ↔ 100 - 29 ≤ d ∧ d ≤ 100 - 1) ∧
    ∀ e d, ((placeholders [3, 4] (datesWindow 100)).map PRow.key).count (e, d) =
      if e ∈ [3, 4] ∧ d ∈ datesWindow 100 then 1 else 0 :=
  C9_placeholder_grid 100 [3, 4] (by decide)

/-!
## The admission filters
-/

theorem optPos_iff (o : Option ℚ) : optPos o = true ↔ ∃ v, o = some v ∧ 0 < v := by
  cases o <;> simp [optPos]

theorem filter_filter_of_imp {α : Type} (p q : α → Bool) (l : List α)
    (himp : ∀ a, p a = true → q a = true) :
    (l.filter q).filter p = l.filter p := by
  induction l with
  | nil => rfl
  | cons a l ih =>
    by_cases hp : p a = true
    · have hq := himp a hp
      rw [List.filter_cons, if_pos hq, List.filter_cons, if_pos hp,
        List.filter_cons, if_pos hp, ih]
    · by_cases hq : q a = true
      · rw [List.filter_cons, if_pos hq, List.filter_cons, if_neg hp,
          List.filter_cons, if_neg hp, ih]
      · rw [List.filter_cons, if_neg hq, List.filter_cons, if_neg hp, ih]

theorem budgetsEvents_filter_admitted (ch : List ChRow) :
    budgetsEvents (ch.filter fun r => budgetAdmitted r || bidAdmitted r) =
      budgetsEvents ch := by
  unfold budgetsEvents
  rw [filter_filter_of_imp budgetAdmitted _ ch fun a ha => by rw [ha]; rfl]

theorem bidsEvents_filter_admitted (ch : List ChRow) :
    bidsEvents (ch.filter fun r => budgetAdmitted r || bidAdmitted r) =
      bidsEvents ch := by
  unfold bidsEvents
  rw [filter_filter_of_imp bidAdmitted _ ch fun a ha => by rw [ha, Bool.or_true]]

/-- C10: a raw row is admitted as a budget event iff both its old and new
budget values are present and strictly positive, and as a bid event iff its
old target_cpa is present and strictly positive (the new value is not
checked); rows failing both filters never influence the pipeline's
output. -/
theorem C10_admission_filters (ch : List ChRow) (E : List ℕ) (cv : List CVRow)
    (today : ℤ) :
    (∀ r ∈ ch,
      (r ∈ ch.filter budgetAdmitted ↔
        (∃ o, r.old_budget_amount = some o ∧ 0 < o) ∧
        ∃ n, r.new_budget_amount = some n ∧ 0 < n) ∧
      (r ∈ ch.filter bidAdmitted ↔ ∃ o, r.old_target_cpa = some o ∧ 0 < o)) ∧
    mainPure ch E cv today =
      mainPure (ch.filter fun r => budgetAdmitted r || bidAdmitted r) E cv today := by
  constructor
  · intro r hr
    constructor
    · rw [List.mem_filter]
      constructor
      · intro ⟨_, hb⟩
        rw [show budgetAdmitted r =
            (optPos r.old_budget_amount && optPos r.new_budget_amount) from rfl,
          Bool.and_eq_true] at hb
        exact ⟨(optPos_iff _).mp hb.1, (optPos_iff _).mp hb.2⟩
      · intro ⟨h1, h2⟩
        refine ⟨hr, ?_⟩
        rw [show budgetAdmitted r =
            (optPos r.old_budget_amount && optPos r.new_budget_amount) from rfl,
          Bool.and_eq_true]
        exact ⟨(optPos_iff _).mpr h1, (optPos_iff _).mpr h2⟩
    · rw [List.mem_filter]
      constructor
      · intro ⟨_, hb⟩
        exact (optPos_iff _).mp hb
      · intro h
        exact ⟨hr, (optPos_iff _).mpr h⟩
  · unfold mainPure restoredBudgets restoredTargetCpas restoredTargetRoas
    rw [budgetsEvents_filter_admitted, bidsEvents_filter_admitted]

theorem C10_admission_filters_witness :
    ((⟨1, ⟨0, 0⟩, some 5, some 10, none, none, none, none⟩ : ChRow) ∈
      [(⟨1, ⟨0, 0⟩, some 5, some 10, none, none, none, none⟩ : ChRow),
       ⟨2, ⟨0, 0⟩, none, some 3, none, some 4, none, none⟩].filter budgetAdmitted ↔
      (∃ o, (some (5 : ℚ) : Option ℚ) = some o ∧ 0 < o) ∧
      ∃ n, (some (10 : ℚ) : Option ℚ) = some n ∧ 0 < n) ∧
    ((⟨1, ⟨0, 0⟩, some 5, some 10, none, none, none, none⟩ : ChRow) ∈
      [(⟨1, ⟨0, 0⟩, some 5, some 10, none, none, none, none⟩ : ChRow),
       ⟨2, ⟨0, 0⟩, none, some 3, none, some 4, none, none⟩].filter bidAdmitted ↔
      ∃ o, (none : Option ℚ) = some o ∧ 0 < o) :=
  (C10_admission_filters
    [⟨1, ⟨0, 0⟩, some 5, some 10, none, none, none, none⟩,
     ⟨2, ⟨0, 0⟩, none, some 3, none, some 4, none, none⟩] [] [] 0).1
    ⟨1, ⟨0, 0⟩, some 5, some 10, none, none, none, none⟩ (by decide)

/-!
## Which events feed the target_roas series
-/

theorem bidsEvents_no_campaign (ch : List ChRow) (e : ℕ)
    (h : ∀ r ∈ ch, r.campaign_id = e → bidAdmitted r = false) :
    ∀ ev ∈ bidsEvents ch, ev.campaign_id ≠ e := by
  intro ev hev hc
  unfold bidsEvents at hev
  by_cases hemp : (ch.filter bidAdmitted).isEmpty
  · rw [if_pos hemp] at hev
    cases hev
  · rw [if_neg hemp] at hev
    obtain ⟨r, hr, _, hcamp⟩ := format_origin _ _ ev hev
    have hrm := List.mem_filter.mp hr
    have hfalse : bidAdmitted r = false := h r hrm.1 (by rw [← hcamp, hc])
    cases hrm.2.symm.trans hfalse

/-- C2 (counterexample): on an input whose only change event is a bid
(target_cpa) change, the script's target_roas series differs from the series
reconstructed from target_roas events as the specification describes. -/
theorem C2_counterexample :
    restoredTargetRoas [⟨1, ⟨19, 0⟩, none, none, some 5, some 7, none, none⟩] [1]
        [⟨1, some 100, some 5, some (mkRat 5 2)⟩] 29 ≠
      specRestoredTargetRoas [⟨1, ⟨19, 0⟩, none, none, some 5, some 7, none, none⟩] [1]
        [⟨1, some 100, some 5, some (mkRat 5 2)⟩] 29 := by
  decide

/-- C2 (amended): the target_roas series is restored from the *bid*
(target_cpa) events, not from target_roas events: an entity with no admitted
bid row falls back to its target_roas snapshot at every date, while an
entity whose only bid event changes target_cpa `a → b` on date `k` gets the
target_cpa values `a`/`b` written into its target_roas series. -/
theorem C2_roas_from_bid_events (ch : List ChRow) (E : List ℕ) (cv : List CVRow)
    (today : ℤ) (e : ℕ) (hE : E.Nodup) (he : e ∈ E) :
    restoredTargetRoas ch E cv today =
      restore_history (placeholders E (datesWindow today)) (bidsEvents ch) cv
        Dim.target_roas ∧
    (∀ cvr s out,
      (∀ r ∈ ch, r.campaign_id = e → bidAdmitted r = false) →
      cv.filter (fun c => c.campaign_id = e) = [cvr] →
      cvr.target_roas = some s →
      restoredTargetRoas ch E cv today = Except.ok out →
      ∀ r ∈ out, r.campaign_id = e → r.value = some s) ∧
    ∀ k a b out,
      (bidsEvents ch).filter (fun ev => ev.campaign_id = e) =
        [⟨k, e, some a, some b⟩] →
      k ∈ datesWindow today →
      restoredTargetRoas ch E cv today = Except.ok out →
      ∀ r ∈ out, r.campaign_id = e →
        (r.date < k → r.value = some a) ∧ (k ≤ r.date → r.value = some b) := by
  refine ⟨rfl, ?_, ?_⟩
  · intro cvr s out hnobid hcv hs hok r hrout hrc
    have hout : out = restoreJoined (placeholders E (datesWindow today))
        (bidsEvents ch) cv Dim.target_roas := (Except.ok.inj hok).symm
    rw [hout] at hrout
    have hnoev := bidsEvents_no_campaign ch e hnobid
    rcases restoreJoined_noevent_val E (datesWindow today) (bidsEvents ch) cv
        Dim.target_roas e hE he hnoev r hrout hrc with ⟨_, hnone⟩ | ⟨c, hc, hcamp, hv⟩
    · exfalso
      have hcvr : cvr ∈ cv.filter fun c => c.campaign_id = e := by
        rw [hcv]
        exact List.mem_singleton.mpr rfl
      have hmem := List.mem_filter.mp hcvr
      exact hnone cvr hmem.1 (of_decide_eq_true hmem.2)
    · have hceq : c ∈ cv.filter fun c => c.campaign_id = e :=
        List.mem_filter.mpr ⟨hc, decide_eq_true hcamp⟩
      rw [hcv] at hceq
      rcases List.mem_singleton.mp hceq with rfl
      rw [hv, show c.attr Dim.target_roas = c.target_roas from rfl, hs]
  · intro k a b out hev hk hok r hrout hrc
    have hout : out = restoreJoined (placeholders E (datesWindow today))
        (bidsEvents ch) cv Dim.target_roas := (Except.ok.inj hok).symm
    rw [hout] at hrout
    have hval := restoreJoined_stepfn E (datesWindow today) (bidsEvents ch) cv
      Dim.target_roas e k a b hE he (datesWindow_sorted today) hk hev r hrout hrc
    constructor
    · intro hlt
      rw [hval, if_pos hlt]
    · intro hge
      rw [hval, if_neg (not_lt.mpr hge)]

theorem C2_roas_from_bid_events_witness :
    (∀ r ∈ (datesWindow 29).map
          (fun d => (⟨d, 1, some (if d < 19 then (5 : ℚ) else 7)⟩ : OutRow)) ++
        (datesWindow 29).map (fun d => (⟨d, 2, some (mkRat 5 2)⟩ : OutRow)),
      r.campaign_id = 2 → r.value = some (mkRat 5 2)) ∧
    ∀ r ∈ (datesWindow 29).map
          (fun d => (⟨d, 1, some (if d < 19 then (5 : ℚ) else 7)⟩ : OutRow)) ++
        (datesWindow 29).map (fun d => (⟨d, 2, some (mkRat 5 2)⟩ : OutRow)),
      r.campaign_id = 1 →
        (r.date < 19 → r.value = some 5) ∧ (19 ≤ r.date → r.value = some 7) := by
  constructor
  · exact (C2_roas_from_bid_events
      [⟨1, ⟨19, 0⟩, none, none, some 5, some 7, none, none⟩] [1, 2]
      [⟨1, some 100, some 5, none⟩, ⟨2, some 200, none, some (mkRat 5 2)⟩] 29 2
      (by decide) (by decide)).2.1 ⟨2, some 200, none, some (mkRat 5 2)⟩ (mkRat 5 2)
      ((datesWindow 29).map
          (fun d => (⟨d, 1, some (if d < 19 then (5 : ℚ) else 7)⟩ : OutRow)) ++
        (datesWindow 29).map (fun d => (⟨d, 2, some (mkRat 5 2)⟩ : OutRow)))
      (by decide) (by decide) (by decide) (by decide)
  · exact (C2_roas_from_bid_events
      [⟨1, ⟨19, 0⟩, none, none, some 5, some 7, none, none⟩] [1, 2]
      [⟨1, some 100, some 5, none⟩, ⟨2, some 200, none, some (mkRat 5 2)⟩] 29 1
      (by decide) (by decide)).2.2 19 5 7
      ((datesWindow 29).map
          (fun d => (⟨d, 1, some (if d < 19 then (5 : ℚ) else 7)⟩ : OutRow)) ++
        (datesWindow 29).map (fun d => (⟨d, 2, some (mkRat 5 2)⟩ : OutRow)))
      (by decide) (by decide) (by decide)

/-!
## Cardinality: keys are preserved by every stage
-/

theorem filter_key_length_le_one (H : List NEvent) (hk : (H.map NEvent.key).Nodup)
    (c : ℕ) (d : ℤ) :
    (H.filter fun ev => ev.campaign_id = c ∧ ev.date = d).length ≤ 1 := by
  induction H with
  | nil => simp
  | cons ev evs ih =>
    rw [List.map_cons, List.nodup_cons] at hk
    rw [List.filter_cons]
    by_cases hp : decide (ev.campaign_id = c ∧ ev.date = d) = true
    · rw [if_pos hp]
      have hkey := of_decide_eq_true hp
      have hrest : (evs.filter fun ev' => ev'.campaign_id = c ∧ ev'.date = d) = [] := by
        apply List.filter_eq_nil_iff.mpr
        intro ev' hev'
        simp only [decide_eq_true_eq, not_and]
        intro h1 h2
        exact absurd (List.mem_map.mpr ⟨ev', hev',
          show ev'.key = ev.key from by
            rw [show ev'.key = (ev'.campaign_id, ev'.date) from rfl, h1, h2,
              show ev.key = (ev.campaign_id, ev.date) from rfl, hkey.1, hkey.2]⟩) hk.1
      rw [hrest]
      exact le_refl 1
    · rw [if_neg hp]
      exact ih hk.2

theorem cv_filter_length_le_one (cv : List CVRow)
    (hcv : (cv.map CVRow.campaign_id).Nodup) (c : ℕ) :
    (cv.filter fun r => r.campaign_id = c).length ≤ 1 := by
  induction cv with
  | nil => simp
  | cons r rs ih =>
    rw [List.map_cons, List.nodup_cons] at hcv
    rw [List.filter_cons]
    by_cases hp : decide (r.campaign_id = c) = true
    · rw [if_pos hp]
      have hkey := of_decide_eq_true hp
      have hrest : (rs.filter fun r' => r'.campaign_id = c) = [] := by
        apply List.filter_eq_nil_iff.mpr
        intro r' hr'
        simp only [decide_eq_true_eq]
        intro h1
        exact absurd (List.mem_map.mpr ⟨r', hr', h1.trans hkey.symm⟩) hcv.1
      rw [hrest]
      exact le_refl 1
    · rw [if_neg hp]
      exact ih hcv.2

theorem length_le_one_singleton {α : Type} (l : List α) (hne : ¬l.isEmpty = true)
    (hlen : l.length ≤ 1) : ∃ a, l = [a] := by
  apply List.length_eq_one.mp
  have h0 : l ≠ [] := fun h => hne (by rw [h]; rfl)
  have h1 : 0 < l.length := List.length_pos.mpr h0
  omega

theorem leftJoinEvents_keys (P : List PRow) (H : List NEvent)
    (hk : (H.map NEvent.key).Nodup) :
    (leftJoinEvents P H).map JRow.key = P.map PRow.key := by
  induction P with
  | nil => rfl
  | cons p ps ih =>
    rw [leftJoinEvents_cons, List.map_append, ih, List.map_cons]
    by_cases hms : (H.filter fun ev =>
        ev.campaign_id = p.campaign_id ∧ ev.date = p.date).isEmpty
    · rw [if_pos hms]
      rfl
    · rw [if_neg hms]
      obtain ⟨ev, hev⟩ := length_le_one_singleton _ hms
        (filter_key_length_le_one H hk p.campaign_id p.date)
      rw [hev]
      rfl

theorem mergeCV_keys (name : Dim) (rows : List JRow) (cv : List CVRow)
    (hcv : (cv.map CVRow.campaign_id).Nodup) :
    (mergeCV name rows cv).map OutRow.key = rows.map JRow.key := by
  induction rows with
  | nil => rfl
  | cons r rs ih =>
    rw [mergeCV_cons, List.map_append, ih, List.map_cons]
    by_cases hms : (cv.filter fun c => c.campaign_id = r.campaign_id).isEmpty
    · rw [if_pos hms]
      rfl
    · rw [if_neg hms]
      obtain ⟨c, hc⟩ := length_le_one_singleton _ hms
        (cv_filter_length_le_one cv hcv r.campaign_id)
      rw [hc]
      rfl

theorem mergeCVPlaceholder_keys (name : Dim) (ps : List PRow) (cv : List CVRow)
    (hcv : (cv.map CVRow.campaign_id).Nodup) :
    (mergeCVPlaceholder name ps cv).map OutRow.key = ps.map PRow.key := by
  induction ps with
  | nil => rfl
  | cons p ps ih =>
    rw [mergeCVPlaceholder_cons, List.map_append, ih, List.map_cons]
    by_cases hms : (cv.filter fun c => c.campaign_id = p.campaign_id).isEmpty
    · rw [if_pos hms]
      rfl
    · rw [if_neg hms]
      obtain ⟨c, hc⟩ := length_le_one_singleton _ hms
        (cv_filter_length_le_one cv hcv p.campaign_id)
      rw [hc]
      rfl

theorem castColumn_keys (name : Dim) (rows out : List OutRow)
    (h : castColumn name rows = Except.ok out) :
    out.map OutRow.key = rows.map OutRow.key := by
  rw [(castColumn_ok_elim name rows out h).1, List.map_map]
  apply List.map_congr_left
  intro r _
  rfl

theorem restore_history_keys (P : List PRow) (H : List NEvent) (cv : List CVRow)
    (name : Dim) (out : List OutRow)
    (hk : (H.map NEvent.key).Nodup) (hcv : (cv.map CVRow.campaign_id).Nodup)
    (hok : restore_history P H cv name = Except.ok out) :
    out.map OutRow.key = P.map PRow.key := by
  rw [castColumn_keys name _ out hok]
  by_cases h : H = []
  · subst h
    rw [restoreJoined_empty]
    exact mergeCVPlaceholder_keys name P cv hcv
  · rw [restoreJoined_nonempty P H cv name h, mergeCV_keys name _ cv hcv,
      map_combineFill_keys, ffillNew_keys, bfillOld, bfillOldAux_keys,
      leftJoinEvents_keys P H hk]

theorem budgetsEvents_keys_nodup (ch : List ChRow) :
    ((budgetsEvents ch).map NEvent.key).Nodup := by
  unfold budgetsEvents
  by_cases hemp : (ch.filter budgetAdmitted).isEmpty
  · rw [if_pos hemp]
    exact List.nodup_nil
  · rw [if_neg hemp]
    exact format_keys_nodup _ _

theorem bidsEvents_keys_nodup (ch : List ChRow) :
    ((bidsEvents ch).map NEvent.key).Nodup := by
  unfold bidsEvents
  by_cases hemp : (ch.filter bidAdmitted).isEmpty
  · rw [if_pos hemp]
    exact List.nodup_nil
  · rw [if_neg hemp]
    exact format_keys_nodup _ _

theorem out_filter_key_length_le_one (right : List OutRow)
    (hk : (right.map OutRow.key).Nodup) (c : ℕ) (d : ℤ) :
    (right.filter fun o => o.campaign_id = c ∧ o.date = d).length ≤ 1 := by
  induction right with
  | nil => simp
  | cons o os ih =>
    rw [List.map_cons, List.nodup_cons] at hk
    rw [List.filter_cons]
    by_cases hp : decide (o.campaign_id = c ∧ o.date = d) = true
    · rw [if_pos hp]
      have hkey := of_decide_eq_true hp
      have hrest : (os.filter fun o' => o'.campaign_id = c ∧ o'.date = d) = [] := by
        apply List.filter_eq_nil_iff.mpr
        intro o' ho'
        simp only [decide_eq_true_eq, not_and]
        intro h1 h2
        exact absurd (List.mem_map.mpr ⟨o', ho',
          show o'.key = o.key from by
            rw [show o'.key = (o'.campaign_id, o'.date) from rfl, h1, h2,
              show o.key = (o.campaign_id, o.date) from rfl, hkey.1, hkey.2]⟩) hk.1
      rw [hrest]
      exact le_refl 1
    · rw [if_neg hp]
      exact ih hk.2

theorem mergeWideStep_cons (set : WideRow → Option ℚ → WideRow) (w : WideRow)
    (ws : List WideRow) (right : List OutRow) :
    mergeWideStep set (w :: ws) right =
      (if (right.filter fun o => o.campaign_id = w.campaign_id ∧ o.date = w.date).isEmpty
       then [set w none]
       else (right.filter fun o =>
         o.campaign_id = w.campaign_id ∧ o.date = w.date).map fun o => set w o.value) ++
      mergeWideStep set ws right := by
  simp [mergeWideStep]

theorem mergeWideStep_keys (set : WideRow → Option ℚ → WideRow)
    (hset : ∀ w v, (set w v).campaign_id = w.campaign_id ∧ (set w v).date = w.date)
    (left : List WideRow) (right : List OutRow)
    (hk : (right.map OutRow.key).Nodup) :
    (mergeWideStep set left right).map WideRow.key = left.map WideRow.key := by
  induction left with
  | nil => rfl
  | cons w ws ih =>
    rw [mergeWideStep_cons, List.map_append, ih, List.map_cons]
    have hkw : ∀ v, WideRow.key (set w v) = WideRow.key w := by
      intro v
      show ((set w v).campaign_id, (set w v).date) = (w.campaign_id, w.date)
      rw [(hset w v).1, (hset w v).2]
    by_cases hms : (right.filter fun o =>
        o.campaign_id = w.campaign_id ∧ o.date = w.date).isEmpty
    · rw [if_pos hms, List.map_singleton, hkw none]
      rfl
    · rw [if_neg hms]
      obtain ⟨o, ho⟩ := length_le_one_singleton _ hms
        (out_filter_key_length_le_one right hk w.campaign_id w.date)
      rw [ho, List.map_singleton, List.map_singleton, hkw o.value]
      rfl

theorem mergeWide_keys (b c r : List OutRow)
    (hc : (c.map OutRow.key).Nodup) (hr : (r.map OutRow.key).Nodup) :
    (mergeWide b c r).map WideRow.key = b.map OutRow.key := by
  unfold mergeWide
  rw [mergeWideStep_keys (fun w v => { w with target_roas := v })
      (fun w v => ⟨rfl, rfl⟩) _ r hr,
    mergeWideStep_keys (fun w v => { w with target_cpa := v })
      (fun w v => ⟨rfl, rfl⟩) _ c hc, List.map_map]
  apply List.map_congr_left
  intro o _
  rfl

theorem nodup_flatMap_product (dates : List ℤ) (hD : dates.Nodup) :
    ∀ (E : List ℕ), E.Nodup →
      (E.flatMap fun c => dates.map fun d => ((c, d) : ℕ × ℤ)).Nodup
  | [], _ => List.nodup_nil
  | c :: cs, hE => by
    rw [List.flatMap_cons]
    apply List.Nodup.append
    · refine List.Nodup.map ?_ hD
      intro x y h
      exact ((Prod.mk.injEq c x c y).mp h).2
    · exact nodup_flatMap_product dates hD cs (List.nodup_cons.mp hE).2
    · intro a ha hb
      obtain ⟨d, _, rfl⟩ := List.mem_map.mp ha
      obtain ⟨c', hc', hmem⟩ := List.mem_flatMap.mp hb
      obtain ⟨d', _, heq⟩ := List.mem_map.mp hmem
      have hcc : c' = c := ((Prod.mk.injEq c' d' c d).mp heq).1
      exact (List.nodup_cons.mp hE).1 (hcc ▸ hc')

theorem placeholders_keys_nodup (E : List ℕ) (dates : List ℤ)
    (hE : E.Nodup) (hD : dates.Nodup) :
    ((placeholders E dates).map PRow.key).Nodup := by
  rw [placeholders_keys]
  exact nodup_flatMap_product dates hD E hE

theorem mainPure_ok_elim (ch : List ChRow) (E : List ℕ) (cv : List CVRow)
    (today : ℤ) (wide : List WideRow)
    (h : mainPure ch E cv today = Except.ok wide) :
    ∃ rb rc rr, restoredBudgets ch E cv today = Except.ok rb ∧
      restoredTargetCpas ch E cv today = Except.ok rc ∧
      restoredTargetRoas ch E cv today = Except.ok rr ∧
      wide = mergeWide rb rc rr := by
  unfold mainPure at h
  cases hrb : restoredBudgets ch E cv today with
  | error err =>
    rw [hrb] at h
    exact Except.noConfusion h
  | ok rb =>
    rw [hrb] at h
    cases hrc : restoredTargetCpas ch E cv today with
    | error err =>
      rw [hrc] at h
      exact Except.noConfusion h
    | ok rc =>
      rw [hrc] at h
      cases hrr : restoredTargetRoas ch E cv today with
      | error err =>
        rw [hrr] at h
        exact Except.noConfusion h
      | ok rr =>
        rw [hrr] at h
        exact ⟨rb, rc, rr, rfl, rfl, rfl, (Except.ok.inj h).symm⟩

/-- C4: with a duplicate-free active-entity set, a snapshot with at most one
row per entity, and normalized events keyed uniquely by `(entity, date)`
(which `format_partial_change_history` guarantees), the final wide table has
exactly `|E| × 29` rows and contains each `(entity, date)` combination of
the grid exactly once. -/
theorem C4_cardinality (ch : List ChRow) (E : List ℕ) (cv : List CVRow)
    (today : ℤ) (wide : List WideRow)
    (hE : E.Nodup) (hcv : (cv.map CVRow.campaign_id).Nodup)
    (hok : mainPure ch E cv today = Except.ok wide) :
    wide.length = E.length * 29 ∧
    ∀ e d, (wide.map WideRow.key).count (e, d) =
      if e ∈ E ∧ d ∈ datesWindow today then 1 else 0 := by
  obtain ⟨rb, rc, rr, hrb, hrc, hrr, hwide⟩ := mainPure_ok_elim ch E cv today wide hok
  have hkb := restore_history_keys (placeholders E (datesWindow today))
    (budgetsEvents ch) cv Dim.budget_amount rb (budgetsEvents_keys_nodup ch) hcv hrb
  have hkc := restore_history_keys (placeholders E (datesWindow today))
    (bidsEvents ch) cv Dim.target_cpa rc (bidsEvents_keys_nodup ch) hcv hrc
  have hkr := restore_history_keys (placeholders E (datesWindow today))
    (bidsEvents ch) cv Dim.target_roas rr (bidsEvents_keys_nodup ch) hcv hrr
  have hplnodup := placeholders_keys_nodup E (datesWindow today) hE
    (datesWindow_nodup today)
  have hwkeys : wide.map WideRow.key =
      (placeholders E (datesWindow today)).map PRow.key := by
    rw [hwide, mergeWide_keys rb rc rr (by rw [hkc]; exact hplnodup)
      (by rw [hkr]; exact hplnodup), hkb]
  constructor
  · have h1 : (wide.map WideRow.key).length =
        ((placeholders E (datesWindow today)).map PRow.key).length := by
      rw [hwkeys]
    rw [List.length_map, List.length_map] at h1
    rw [h1, placeholders_length, datesWindow_length]
  · intro e d
    rw [hwkeys, placeholders_keys]
    exact count_flatMap_product (datesWindow today) (datesWindow_nodup today) e d E hE

theorem C4_cardinality_witness :
    ((datesWindow 29).map fun d =>
      (⟨d, 1, some 100, some 5, some 2⟩ : WideRow)).length = [1].length * 29 ∧
    ∀ e d, (((datesWindow 29).map fun d =>
        (⟨d, 1, some 100, some 5, some 2⟩ : WideRow)).map WideRow.key).count (e, d) =
      if e ∈ [1] ∧ d ∈ datesWindow 29 then 1 else 0 :=
  C4_cardinality [] [1] [⟨1, some 100, some 5, some 2⟩] 29
    ((datesWindow 29).map fun d => ⟨d, 1, some 100, some 5, some 2⟩)
    (by decide) (by decide) (by decide)

end Backfill
